import Mathlib

/-!
Verification of the text layout engine in `src/layout.rs` (a fontdue fork).

`f32` values are modelled as exact rationals (`ℚ`); `platform::{ceil, floor}`
become the integer-valued ceiling and floor on `ℚ`, cast back into `ℚ`.
`usize`/`u16` become `Nat` with explicit truncation where the source casts.
Vectors become lists with push at the tail.  The externals that are not part
of the sources under `src/` (the `Font` capability, the streaming Unicode
line-break classifier and `CharacterData::classify` from the `unicode`
module) are modelled from the spec as opaque data: structures of functions
and an oracle for the classifier stream.
-/

namespace Fontdue

/-- `platform::ceil` on the rational model of `f32`. -/
def fceil (q : ℚ) : ℚ := ((Int.ceil q : ℤ) : ℚ)

/-- `platform::floor` on the rational model of `f32`. -/
def ffloor (q : ℚ) : ℚ := ((Int.floor q : ℤ) : ℚ)

/-- `f32::MAX` as an exact rational: `(2 - 2⁻²³) · 2¹²⁷`. -/
def F32_MAX : ℚ := 2 ^ 128 - 2 ^ 104

/-- A rational is a whole number (its reduced denominator is 1).  This is the
"whole number" predicate used for coordinate integrality statements. -/
def QInt (q : ℚ) : Prop := q.den = 1

instance (q : ℚ) : Decidable (QInt q) := by unfold QInt; infer_instance

theorem QInt_iff {q : ℚ} : QInt q ↔ ∃ z : ℤ, q = (z : ℚ) := by
  constructor
  · intro h
    exact ⟨q.num, (Rat.den_eq_one_iff q |>.mp h).symm⟩
  · rintro ⟨z, rfl⟩
    exact Rat.den_intCast z

theorem QInt.intCast (z : ℤ) : QInt (z : ℚ) := QInt_iff.mpr ⟨z, rfl⟩

theorem QInt.natCast (n : ℕ) : QInt (n : ℚ) := by
  simpa using QInt.intCast (n : ℤ)

theorem QInt.zero : QInt (0 : ℚ) := by simpa using QInt.intCast 0

theorem QInt.one : QInt (1 : ℚ) := by simpa using QInt.intCast 1

theorem QInt.add {a b : ℚ} (ha : QInt a) (hb : QInt b) : QInt (a + b) := by
  obtain ⟨x, rfl⟩ := QInt_iff.mp ha
  obtain ⟨y, rfl⟩ := QInt_iff.mp hb
  exact QInt_iff.mpr ⟨x + y, by push_cast; ring⟩

theorem QInt.neg {a : ℚ} (ha : QInt a) : QInt (-a) := by
  obtain ⟨x, rfl⟩ := QInt_iff.mp ha
  exact QInt_iff.mpr ⟨-x, by push_cast; ring⟩

theorem QInt.sub {a b : ℚ} (ha : QInt a) (hb : QInt b) : QInt (a - b) := by
  simpa [sub_eq_add_neg] using ha.add hb.neg

theorem QInt.mul {a b : ℚ} (ha : QInt a) (hb : QInt b) : QInt (a * b) := by
  obtain ⟨x, rfl⟩ := QInt_iff.mp ha
  obtain ⟨y, rfl⟩ := QInt_iff.mp hb
  exact QInt_iff.mpr ⟨x * y, by push_cast; ring⟩

theorem QInt.fceil (q : ℚ) : QInt (fceil q) := QInt_iff.mpr ⟨Int.ceil q, rfl⟩

theorem QInt.ffloor (q : ℚ) : QInt (ffloor q) := QInt_iff.mpr ⟨Int.floor q, rfl⟩

theorem le_fceil (q : ℚ) : q ≤ fceil q := Int.le_ceil q

theorem fceil_lt_add_one (q : ℚ) : fceil q < q + 1 := Int.ceil_lt_add_one q

theorem fceil_intCast (z : ℤ) : fceil (z : ℚ) = (z : ℚ) := by
  simp [fceil]

/-- `ceil` fixes whole numbers. -/
theorem fceil_of_QInt {q : ℚ} (h : QInt q) : fceil q = q := by
  obtain ⟨z, rfl⟩ := QInt_iff.mp h
  exact fceil_intCast z

/-! ### Externals modelled from the spec

The `unicode` module and `Font` are part of the repository but absent from
`src/`; they are modelled from spec sections 6.1 and 6.2. -/

/-- Modelled from the spec: the line-break strength carried by
`LinebreakData`, ordered `None < Soft < Hard` (spec 6.2). -/
inductive Linebreak where
  | none
  | soft
  | hard
deriving DecidableEq, Repr

/-- Numeric strength used for the `None < Soft < Hard` order. -/
def Linebreak.toNat : Linebreak → Nat
  | .none => 0
  | .soft => 1
  | .hard => 2

/-- The `>=` comparison of `LinebreakData` used by the break-candidate
update, via the `None < Soft < Hard` order. -/
def lbGe (a b : Linebreak) : Bool := decide (b.toNat ≤ a.toNat)

/-- `LinebreakData::is_hard` (spec 6.2). -/
def Linebreak.isHard : Linebreak → Bool
  | .hard => true
  | _ => false

/-- Modelled from the spec: the wrap mask built by
`LinebreakData::from_mask(word, hard, has_width)` — bits enabling soft
breaks by word, hard breaks, and max-width-driven wrapping (spec 4.1). -/
structure LinebreakMask where
  word : Bool
  hard : Bool
  width : Bool
deriving DecidableEq, Repr

/-- `LinebreakData::from_mask` (spec 4.1). -/
def LinebreakMask.from_mask (word hard width : Bool) : LinebreakMask :=
  ⟨word, hard, width⟩

/-- Modelled from the spec: `LinebreakData::mask` disables break kinds per
settings (spec 6.2): hard breaks survive iff the hard bit is set, soft
breaks survive iff word wrapping is on and a max width is present. -/
def Linebreak.mask (l : Linebreak) (m : LinebreakMask) : Linebreak :=
  match l with
  | .hard => if m.hard then .hard else .none
  | .soft => if m.word && m.width then .soft else .none
  | .none => .none

/-- Modelled from the spec: the character classification produced by
`CharacterData::classify`; the layout engine only consumes
`is_whitespace` and `is_control` (spec 4.2). -/
structure CharacterData where
  whitespace : Bool
  control : Bool
deriving DecidableEq, Repr

/-- Modelled from the spec: `OutlineBounds` of a glyph (spec 6.1). -/
structure OutlineBounds where
  xmin : ℚ
  ymin : ℚ
  width : ℚ
  height : ℚ
deriving DecidableEq, Repr

/-- Modelled from the spec: per-glyph `Metrics`
(`advance_width`, bounding box, raster dimensions — spec 6.1). -/
structure Metrics where
  advance_width : ℚ
  bounds : OutlineBounds
  width : Nat
  height : Nat
deriving DecidableEq, Repr

/-- `Metrics::default()`: all-zero metrics, used for control characters. -/
def Metrics.default : Metrics :=
  { advance_width := 0, bounds := ⟨0, 0, 0, 0⟩, width := 0, height := 0 }

/-- Modelled from the spec: the result of
`Font::horizontal_line_metrics` (spec 6.1). -/
structure LineMetrics where
  ascent : ℚ
  descent : ℚ
  line_gap : ℚ
  new_line_size : ℚ
deriving DecidableEq, Repr

/-- Modelled from the spec: the opaque `Font` capability (spec 6.1), as a
structure of the four functions the layout engine calls. -/
structure Font where
  horizontal_line_metrics : ℚ → Option LineMetrics
  lookup_glyph_index : Char → Nat
  metrics_indexed : Nat → ℚ → Metrics
  file_hash : Nat

/-- Modelled from the spec: the remaining externals — character
classification (spec 4.2) and the streaming line-break classifier
(spec 6.2).  `lbNext prior c` is the raw `LinebreakData` that
`Linebreaker::next(c)` emits after having consumed the stream `prior`. -/
structure Ext where
  classify : Char → Nat → CharacterData
  lbNext : List Char → Char → Linebreak

/-! ### Data model of `src/layout.rs` -/

/-- `HorizontalAlign` (layout.rs:14). -/
inductive HorizontalAlign where
  | left
  | center
  | right
  | justify
deriving DecidableEq, Repr

/-- `VerticalAlign` (layout.rs:27). -/
inductive VerticalAlign where
  | top
  | middle
  | bottom
deriving DecidableEq, Repr

/-- `WrapStyle` (layout.rs:39). -/
inductive WrapStyle where
  | word
  | letter
deriving DecidableEq, Repr

/-- `CoordinateSystem` (layout.rs:50). -/
inductive CoordinateSystem where
  | positiveYUp
  | positiveYDown
deriving DecidableEq, Repr

/-- `LayoutSettings` (layout.rs:62). -/
structure LayoutSettings where
  x : ℚ
  y : ℚ
  max_width : Option ℚ
  max_height : Option ℚ
  horizontal_align : HorizontalAlign
  vertical_align : VerticalAlign
  wrap_style : WrapStyle
  wrap_hard_breaks : Bool
deriving DecidableEq, Repr

/-- `LayoutSettings::default()` (layout.rs:90). -/
def LayoutSettings.default : LayoutSettings :=
  { x := 0
    y := 0
    max_width := Option.none
    max_height := Option.none
    horizontal_align := HorizontalAlign.left
    vertical_align := VerticalAlign.top
    wrap_style := WrapStyle.word
    wrap_hard_breaks := true }

/-- `GlyphRasterConfig` as stored on glyph positions during layout
(layout.rs:107); `px` is the rational model of the `f32` field.  The
bit-exact equality/hash semantics of this key are studied separately in
the `F32Key` namespace below. -/
structure GlyphRasterConfig where
  glyph_index : Nat
  px : ℚ
  font_hash : Nat
deriving DecidableEq, Repr

/-- `GlyphPosition` (layout.rs:134). -/
structure GlyphPosition (U : Type) where
  key : Option GlyphRasterConfig
  font : Font
  parent : Char
  x : ℚ
  y : ℚ
  width : Nat
  height : Nat
  char_data : CharacterData
  user_data : U

/-- `BlockAlign` (layout.rs:162). -/
inductive BlockAlign where
  | baseline
  | middle
deriving DecidableEq, Repr

/-- `Block` (layout.rs:191). -/
structure Block where
  width : Nat
  height : Nat
  align : BlockAlign
deriving DecidableEq, Repr

/-- The common (non-variant) fields of a `Span` (layout.rs:221):
font/px overrides, rise, kerning, line-height override and user data. -/
structure SpanStyle (U : Type) where
  font : Option Font
  px : Option ℚ
  rise : ℚ
  kerning : ℚ
  line_height : Option ℚ
  user_data : U

/-- `LinePosition` (layout.rs:272). -/
structure LinePosition where
  baseline_y : ℚ
  padding : ℚ
  max_ascent : ℚ
  min_descent : ℚ
  max_line_gap : ℚ
  max_new_line_size : ℚ
  line_height : Option ℚ
  glyph_start : Nat
  glyph_end : Nat
  tracking_x : ℚ
deriving DecidableEq, Repr

/-- `LinePosition::default()` (layout.rs:302). -/
def LinePosition.default : LinePosition :=
  { baseline_y := 0
    padding := 0
    max_ascent := 0
    min_descent := 0
    max_line_gap := 0
    max_new_line_size := 0
    line_height := Option.none
    glyph_start := 0
    glyph_end := 0
    tracking_x := 0 }

/-- `Layout` (layout.rs:321).  The `Linebreaker` field is modelled by the
list of characters the streaming classifier has consumed since its last
reset; the classifier itself lives in `Ext`. -/
structure Layout (U : Type) where
  flip : Bool
  x : ℚ
  y : ℚ
  wrap_mask : LinebreakMask
  max_width : ℚ
  max_height : ℚ
  vertical_align : ℚ
  horizontal_align : ℚ
  height : ℚ
  base_font : Font
  base_px : ℚ
  output : List (GlyphPosition U)
  glyphs : List (GlyphPosition U)
  linebreaker : List Char
  linebreak_prev : Linebreak
  linebreak_pos : ℚ
  linebreak_idx : Nat
  prev_not_whitespace : Bool
  line_end_pos : ℚ
  line_end_idx : Nat
  line_metrics : List LinePosition
  current_pos : ℚ
  current_ascent : ℚ
  current_descent : ℚ
  current_line_gap : ℚ
  current_new_line : ℚ
  current_line_height : Option ℚ
  start_pos : ℚ
  justify : Bool
  wrap_by_letter : Bool
  settings : LayoutSettings

/-! ### Operations of `src/layout.rs` -/

variable {U : Type}

/-- `Vec::last_mut` under `if let Some(..)`: apply `f` to the last element
when the list is non-empty, otherwise do nothing. -/
def modifyLast (f : α → α) : List α → List α
  | [] => []
  | [a] => [f a]
  | a :: b :: rest => a :: modifyLast f (b :: rest)

/-- `Layout::clear` (layout.rs:478). -/
def clear (l : Layout U) : Layout U :=
  { l with
    glyphs := []
    output := []
    line_metrics := [LinePosition.default]
    linebreaker := []
    linebreak_prev := Linebreak.none
    linebreak_pos := 0
    linebreak_idx := 0
    prev_not_whitespace := false
    line_end_pos := 0
    line_end_idx := 0
    current_pos := 0
    current_ascent := 0
    current_descent := 0
    current_line_gap := 0
    current_new_line := 0
    current_line_height := Option.none
    start_pos := 0
    height := 0 }

/-- `Layout::reset` (layout.rs:443). -/
def reset (l : Layout U) (settings : LayoutSettings) : Layout U :=
  clear
    { l with
      settings := settings
      x := settings.x
      y := settings.y
      wrap_mask := LinebreakMask.from_mask
        (decide (settings.wrap_style = WrapStyle.word))
        settings.wrap_hard_breaks
        settings.max_width.isSome
      max_width := settings.max_width.getD F32_MAX
      max_height := settings.max_height.getD F32_MAX
      vertical_align :=
        if settings.max_height.isNone then 0
        else
          match settings.vertical_align with
          | VerticalAlign.top => 0
          | VerticalAlign.middle => 1 / 2
          | VerticalAlign.bottom => 1
      horizontal_align :=
        if settings.max_width.isNone then 0
        else
          match settings.horizontal_align with
          | HorizontalAlign.left => 0
          | HorizontalAlign.justify => 0
          | HorizontalAlign.center => 1 / 2
          | HorizontalAlign.right => 1
      justify := decide (settings.horizontal_align = HorizontalAlign.justify)
      wrap_by_letter := decide (settings.wrap_style = WrapStyle.letter) }

/-- `Layout::new` (layout.rs:396): zero-initialize, then `reset` with the
default settings. -/
def Layout.new (U : Type) (font : Font) (px : ℚ) (cs : CoordinateSystem) :
    Layout U :=
  reset
    { flip := decide (cs = CoordinateSystem.positiveYDown)
      x := 0
      y := 0
      wrap_mask := LinebreakMask.from_mask false false false
      max_width := 0
      max_height := 0
      base_font := font
      base_px := px
      vertical_align := 0
      horizontal_align := 0
      output := []
      glyphs := []
      line_metrics := []
      linebreaker := []
      linebreak_prev := Linebreak.none
      linebreak_pos := 0
      linebreak_idx := 0
      prev_not_whitespace := false
      line_end_pos := 0
      line_end_idx := 0
      current_pos := 0
      current_ascent := 0
      current_descent := 0
      current_line_gap := 0
      current_new_line := 0
      current_line_height := Option.none
      start_pos := 0
      height := 0
      justify := false
      wrap_by_letter := false
      settings := LayoutSettings.default }
    LayoutSettings.default

/-- `Layout::height` (layout.rs:502). -/
def heightFn (l : Layout U) : ℚ :=
  match l.line_metrics.getLast? with
  | some line => l.height + line.max_new_line_size
  | Option.none => 0

/-- `Layout::update_last_line_metrics` (layout.rs:702). -/
def updateLastLineMetrics (l : Layout U) : Layout U :=
  { l with
    line_metrics :=
      modifyLast
        (fun line =>
          let line :=
            if l.current_ascent > line.max_ascent then
              { line with max_ascent := l.current_ascent }
            else line
          let line :=
            if l.current_descent < line.min_descent then
              { line with min_descent := l.current_descent }
            else line
          let line :=
            if l.current_line_gap > line.max_line_gap then
              { line with max_line_gap := l.current_line_gap }
            else line
          let line :=
            if l.current_new_line > line.max_new_line_size then
              { line with max_new_line_size := l.current_new_line }
            else line
          match l.current_line_height with
          | some line_height =>
            { line with
              line_height :=
                some ((line.line_height.map (fun h => max h line_height)).getD
                  line_height) }
          | Option.none => line)
        l.line_metrics }

/-- The justification walk of `perform_linebreak` (layout.rs:736-742):
left-to-right over the line's glyph slice, each glyph's `x` becomes
`ceil(x + dx)`, and `dx` grows by `extra` after every whitespace glyph. -/
def justifyWalk (extra : ℚ) : ℚ → List (GlyphPosition U) → List (GlyphPosition U)
  | _, [] => []
  | dx, g :: rest =>
    { g with x := fceil (g.x + dx) } ::
      justifyWalk extra (if g.char_data.whitespace then dx + extra else dx) rest

/-- The Rust slice expression `&mut v[a..b]` (layout.rs:731 and 737):
`none` is the slice-bounds panic, raised unless `a ≤ b ∧ b ≤ v.length`. -/
def sliceMut? (v : List α) (a b : Nat) : Option (List α) :=
  if a ≤ b ∧ b ≤ v.length then some ((v.drop a).take (b - a)) else none

/-- The in-place slice update `&mut self.glyphs[start..stop]` performed by
the justification loop (layout.rs:737): glyphs outside `[start, stop)` are
untouched.  The slice expression itself panics in Rust when the bounds are
invalid (`sliceMut?` returns `none`), and that case is reachable — see
`C7_panic_reachable` — so on the `none` branch this total function is a
stand-in, not a model of the source: it falls back to the clamped slice,
and no theorem of this development concludes anything about the source
from that branch (theorems about justified glyph content either assume
`sliceMut?` succeeds, or a positive whitespace count, which on reachable
states forces a successful slice). -/
def justifyGlyphs (gs : List (GlyphPosition U)) (start stop : Nat) (extra : ℚ) :
    List (GlyphPosition U) :=
  match sliceMut? gs start stop with
  | some seg => gs.take start ++ justifyWalk extra 0 seg ++ gs.drop stop
  | Option.none =>
    -- the source panics on the slice bounds before reaching this point
    let seg := (gs.drop start).take (stop - start)
    gs.take start ++ justifyWalk extra 0 seg ++ gs.drop (start + seg.length)

/-- Characterization of a successful Rust slice. -/
theorem sliceMut?_eq_some {v : List α} {a b : Nat} {s : List α} :
    sliceMut? v a b = some s ↔
      (a ≤ b ∧ b ≤ v.length) ∧ s = (v.drop a).take (b - a) := by
  unfold sliceMut?
  split
  · rename_i h
    constructor
    · intro he
      exact ⟨h, (Option.some_inj.mp he).symm⟩
    · intro hh
      rw [hh.2]
  · rename_i h
    constructor
    · intro he
      exact absurd he (by simp)
    · intro hh
      exact absurd hh.1 h

/-- On every input, `justifyGlyphs` agrees with the clamped-slice update
(the two branches coincide when the slice is valid). -/
theorem justifyGlyphs_eq (gs : List (GlyphPosition U)) (a b : Nat) (e : ℚ) :
    justifyGlyphs gs a b e =
      gs.take a ++ justifyWalk e 0 ((gs.drop a).take (b - a)) ++
        gs.drop (a + ((gs.drop a).take (b - a)).length) := by
  unfold justifyGlyphs
  cases hsm : sliceMut? gs a b with
  | none => rfl
  | some seg =>
    obtain ⟨⟨hab, hbl⟩, hseg⟩ := sliceMut?_eq_some.mp hsm
    subst hseg
    have hlen : ((gs.drop a).take (b - a)).length = b - a := by
      simp only [List.length_take, List.length_drop]
      omega
    rw [hlen, Nat.add_sub_cancel' hab]

/-- `Layout::perform_linebreak` (layout.rs:722). -/
def performLinebreak (linebreak : Linebreak) (l : Layout U) : Layout U :=
  let l0 := { l with linebreak_prev := Linebreak.none }
  let r : Layout U × Nat :=
    match l0.line_metrics.getLast? with
    | Option.none => (l0, l0.output.length)
    | some line =>
      let line :=
        { line with
          glyph_end := l0.line_end_idx
          padding := l0.max_width - (l0.line_end_pos - l0.start_pos) }
      let height := l0.height + line.max_new_line_size * line.line_height.getD 1
      let next := l0.linebreak_idx + 1
      if l0.justify && !linebreak.isHard then
        let seg : List (GlyphPosition U) := (l0.glyphs.drop line.glyph_start).take
          (line.glyph_end - line.glyph_start)
        let n_spaces := (seg.filter (fun g => g.char_data.whitespace)).length
        let extra_space := line.padding / (n_spaces : ℚ)
        let line := { line with padding := 0 }
        ({ l0 with
            glyphs := justifyGlyphs l0.glyphs line.glyph_start line.glyph_end
              extra_space
            height := height
            line_metrics := l0.line_metrics.dropLast ++ [line] }, next)
      else
        ({ l0 with
            height := height
            line_metrics := l0.line_metrics.dropLast ++ [line] }, next)
  let l1 := r.1
  { l1 with
    line_metrics :=
      l1.line_metrics ++
        [{ baseline_y := 0
           padding := 0
           max_ascent := l1.current_ascent
           min_descent := l1.current_descent
           max_line_gap := l1.current_line_gap
           max_new_line_size := l1.current_new_line
           line_height := l1.current_line_height
           glyph_start := r.2
           glyph_end := 0
           tracking_x := l1.linebreak_pos }]
    start_pos := l1.linebreak_pos }

/-- The per-character body of the decoding loop in `Layout::append_text`
(layout.rs:565-620). -/
def appendTextChar (ext : Ext) (common_params : SpanStyle U) (font : Font)
    (px : ℚ) (l : Layout U) (character : Char) : Layout U :=
  let linebreak := (ext.lbNext l.linebreaker character).mask l.wrap_mask
  let l := { l with linebreaker := l.linebreaker ++ [character] }
  let glyph_index := font.lookup_glyph_index character
  let char_data := ext.classify character glyph_index
  let whitespace := char_data.whitespace
  let metrics :=
    if !char_data.control then font.metrics_indexed glyph_index px
    else Metrics.default
  let advance := fceil (metrics.advance_width + common_params.kerning)
  let l :=
    if lbGe linebreak l.linebreak_prev then
      { l with
        linebreak_prev := linebreak
        linebreak_pos := l.current_pos
        linebreak_idx := l.glyphs.length - 1 }
    else l
  let l :=
    if l.prev_not_whitespace && (l.wrap_by_letter || whitespace) then
      { l with
        line_end_pos := l.current_pos
        line_end_idx := l.glyphs.length - (if !whitespace then 1 else 0) }
    else l
  let l :=
    if linebreak.isHard ||
        (decide (l.current_pos - l.start_pos + advance > l.max_width) &&
          !whitespace) then
      performLinebreak linebreak l
    else l
  let y :=
    if l.flip then
      ffloor (-metrics.bounds.height - metrics.bounds.ymin - common_params.rise)
    else
      ffloor (metrics.bounds.ymin + common_params.rise)
  { l with
    glyphs :=
      l.glyphs ++
        [{ key := some
             { glyph_index := glyph_index % 2 ^ 16
               px := px
               font_hash := font.file_hash }
           font := font
           parent := character
           x := ffloor (l.current_pos + metrics.bounds.xmin)
           y := y
           width := metrics.width
           height := metrics.height
           char_data := char_data
           user_data := common_params.user_data }]
    current_pos := l.current_pos + advance
    prev_not_whitespace := !whitespace }

/-- `Layout::append_text` (layout.rs:546), with the UTF-8 input already
decoded into its list of code points. -/
def appendText (ext : Ext) (common_params : SpanStyle U) (text : List Char)
    (l : Layout U) : Layout U :=
  if text.isEmpty then l
  else
    let font := common_params.font.getD l.base_font
    let px := common_params.px.getD l.base_px
    let l :=
      match font.horizontal_line_metrics px with
      | some metrics =>
        updateLastLineMetrics
          { l with
            current_ascent := fceil metrics.ascent
            current_new_line := fceil metrics.new_line_size
            current_descent := fceil metrics.descent
            current_line_gap := fceil metrics.line_gap
            current_line_height := common_params.line_height }
      | Option.none => l
    let l := text.foldl (appendTextChar ext common_params font px) l
    { l with
      line_metrics :=
        modifyLast
          (fun line =>
            { line with
              padding := l.max_width - (l.current_pos - l.start_pos)
              glyph_end := l.glyphs.length - 1 })
          l.line_metrics }

/-- The style intake at the head of `Layout::append_block`
(layout.rs:639-654): synthesize the block's line metrics — scaling the
font's ascent:descent ratio to the block height for `Middle` alignment
with available font metrics, else ascent = height — and fold them into the
last line's aggregates. -/
def appendBlockStyle (common_params : SpanStyle U) (font : Font) (px : ℚ)
    (params : Block) (l : Layout U) : Layout U :=
  let l :=
    match font.horizontal_line_metrics px, params.align with
    | some metrics, BlockAlign.middle =>
      let font_height := metrics.ascent - metrics.descent
      let block_ascent := metrics.ascent / font_height * (params.height : ℚ)
      let block_descent := metrics.descent / font_height * (params.height : ℚ)
      { l with
        current_ascent := fceil block_ascent
        current_descent := fceil block_descent
        current_new_line :=
          fceil (block_ascent - block_descent + metrics.line_gap)
        current_line_gap := fceil metrics.line_gap }
    | _, _ =>
      { l with
        current_ascent := (params.height : ℚ)
        current_descent := 0
        current_new_line := (params.height : ℚ)
        current_line_gap := 0 }
  updateLastLineMetrics
    { l with current_line_height := common_params.line_height }

/-- `Layout::append_block` (layout.rs:631). -/
def appendBlock (ext : Ext) (common_params : SpanStyle U) (params : Block)
    (l : Layout U) : Layout U :=
  if params.width = 0 || params.height = 0 then l
  else
    let font := common_params.font.getD l.base_font
    let px := common_params.px.getD l.base_px
    let l := appendBlockStyle common_params font px params l
    let character := 'x'
    let linebreak := (ext.lbNext l.linebreaker character).mask l.wrap_mask
    let l := { l with linebreaker := l.linebreaker ++ [character] }
    let char_data := ext.classify character 0
    let advance := (params.width : ℚ) + common_params.kerning
    let l :=
      if lbGe linebreak l.linebreak_prev then
        { l with
          linebreak_prev := linebreak
          linebreak_pos := l.current_pos
          linebreak_idx := l.glyphs.length - 1 }
      else l
    let l :=
      if l.prev_not_whitespace && l.wrap_by_letter then
        { l with
          line_end_pos := l.current_pos
          line_end_idx := l.glyphs.length - 1 }
      else l
    let l :=
      if l.current_pos - l.start_pos + advance > l.max_width then
        performLinebreak linebreak l
      else l
    let y := if l.flip then -l.current_ascent else l.current_descent
    let l :=
      { l with
        glyphs :=
          l.glyphs ++
            [({ key := Option.none
                font := font
                parent := character
                x := ffloor l.current_pos
                y := y
                width := params.width
                height := params.height
                char_data := char_data
                user_data := common_params.user_data } : GlyphPosition U)]
        current_pos := l.current_pos + advance
        prev_not_whitespace := true }
    { l with
      line_metrics :=
        modifyLast
          (fun line =>
            { line with
              padding := l.max_width - (l.current_pos - l.start_pos)
              glyph_end := l.glyphs.length - 1 })
          l.line_metrics }

/-- One iteration group of the `while idx <= line.glyph_end` loop in
`Layout::finalize` (layout.rs:782-788): clone `glyphs[idx..=glyph_end]`
into the output with the line's offsets applied. -/
def emitGlyphs (glyphs : List (GlyphPosition U)) (idx gend : Nat)
    (x_padding baseline_y : ℚ) : List (GlyphPosition U) :=
  ((glyphs.drop idx).take (gend + 1 - idx)).map
    (fun g => { g with x := g.x + x_padding, y := g.y + baseline_y })

/-- The per-line loop of `Layout::finalize` (layout.rs:778-790), carrying
the running `baseline_y` and glyph cursor `idx`; returns the updated line
metrics and the emitted output glyphs. -/
def finalizeLines (glyphs : List (GlyphPosition U)) (x0 h_align dir : ℚ) :
    ℚ → Nat → List LinePosition → List LinePosition × List (GlyphPosition U)
  | _, _, [] => ([], [])
  | baseline_y, idx, line :: rest =>
    let x_padding := x0 - line.tracking_x + ffloor (line.padding * h_align)
    let baseline_y := baseline_y - dir * line.max_ascent
    let line' := { line with baseline_y := baseline_y }
    let emitted := emitGlyphs glyphs idx line.glyph_end x_padding baseline_y
    let idx := max idx (line.glyph_end + 1)
    let baseline_y := baseline_y -
      dir * (line.max_new_line_size * line.line_height.getD 1 - line.max_ascent)
    let rec_result := finalizeLines glyphs x0 h_align dir baseline_y idx rest
    (line' :: rec_result.1, emitted ++ rec_result.2)

/-- `Layout::finalize` (layout.rs:761). -/
def finalize (l : Layout U) : Layout U :=
  if l.glyphs.isEmpty then l
  else
    let dir : ℚ := if l.flip then -1 else 1
    let baseline_y :=
      l.y - dir * ffloor ((l.max_height - heightFn l) * l.vertical_align)
    let r := finalizeLines l.glyphs l.x l.horizontal_align dir baseline_y 0
      l.line_metrics
    { l with line_metrics := r.1, output := r.2 }

/-- One `append` call (layout.rs:531) or one of the other public state
transitions of the engine. -/
inductive Op (U : Type) where
  | reset (s : LayoutSettings)
  | clear
  | appendText (span : SpanStyle U) (text : List Char)
  | appendBlock (span : SpanStyle U) (block : Block)
  | finalize

/-- Apply one public operation to the engine state. -/
def applyOp (ext : Ext) (l : Layout U) : Op U → Layout U
  | Op.reset s => reset l s
  | Op.clear => clear l
  | Op.appendText span text => appendText ext span text l
  | Op.appendBlock span block => appendBlock ext span block l
  | Op.finalize => finalize l

/-- Run a sequence of public operations. -/
def runOps (ext : Ext) (l : Layout U) (ops : List (Op U)) : Layout U :=
  ops.foldl (applyOp ext) l

/-! ### Concrete fixtures for witnesses and counterexamples -/

/-- A concrete font: every glyph advances by 10 with a zero bounding box;
line metrics are ascent 8, descent −2, gap 0, new-line size 10. -/
def fontA : Font :=
  { horizontal_line_metrics := fun _ =>
      some { ascent := 8, descent := -2, line_gap := 0, new_line_size := 10 }
    lookup_glyph_index := fun c => c.toNat
    metrics_indexed := fun _ _ =>
      { advance_width := 10, bounds := ⟨0, 0, 0, 0⟩, width := 1, height := 1 }
    file_hash := 7 }

/-- A concrete classifier oracle: only `' '` is whitespace, nothing is a
control character; a hard break is reported after `'\n'` and a soft break
opportunity after `' '`. -/
def extA : Ext :=
  { classify := fun c _ => { whitespace := c == ' ', control := false }
    lbNext := fun prior _ =>
      if prior.getLast? = some '\n' then Linebreak.hard
      else if prior.getLast? = some ' ' then Linebreak.soft
      else Linebreak.none }

/-- A plain text span style with no overrides. -/
def spanA : SpanStyle Unit :=
  { font := Option.none
    px := Option.none
    rise := 0
    kerning := 0
    line_height := Option.none
    user_data := () }

/-- A freshly constructed engine over `fontA` at 12px, positive-Y-up. -/
def L0 : Layout Unit := Layout.new Unit fontA 12 CoordinateSystem.positiveYUp

/-- Settings with `max_width = 25`: under `fontA`, `"ab cd"` soft-wraps at
`'c'` (which would end at x = 40 > 25). -/
def sC1 : LayoutSettings := { LayoutSettings.default with max_width := some 25 }

/-- The engine state after appending `"ab cd"` under `sC1`: glyph indices
are `a`:0, `b`:1, `' '`:2, `c`:3, `d`:4 and the wrap fires at `'c'`. -/
def resC1 : Layout Unit := appendText extA spanA "ab cd".toList (reset L0 sC1)

/-! ### Helper lemmas -/

theorem justifyWalk_length (extra : ℚ) :
    ∀ (dx : ℚ) (seg : List (GlyphPosition U)),
      (justifyWalk extra dx seg).length = seg.length := by
  intro dx seg
  induction seg generalizing dx with
  | nil => rfl
  | cons g rest ih => simp [justifyWalk, ih]

theorem justifyGlyphs_length (gs : List (GlyphPosition U)) (a b : Nat) (e : ℚ) :
    (justifyGlyphs gs a b e).length = gs.length := by
  rw [justifyGlyphs_eq]
  simp only [List.length_append, List.length_take, List.length_drop,
    justifyWalk_length]
  omega

theorem performLinebreak_glyphs_length (lb : Linebreak) (l : Layout U) :
    (performLinebreak lb l).glyphs.length = l.glyphs.length := by
  unfold performLinebreak
  dsimp only
  cases h : l.line_metrics.getLast? with
  | none => rfl
  | some line =>
    by_cases hj : (l.justify && !lb.isHard) = true
    · simp [hj, justifyGlyphs_length]
    · simp [hj]

theorem performLinebreak_line_end_idx (lb : Linebreak) (l : Layout U) :
    (performLinebreak lb l).line_end_idx = l.line_end_idx := by
  unfold performLinebreak
  dsimp only
  cases h : l.line_metrics.getLast? with
  | none => rfl
  | some line =>
    by_cases hj : (l.justify && !lb.isHard) = true
    · simp [hj]
    · simp [hj]

theorem performLinebreak_lines_length (lb : Linebreak) (l : Layout U) :
    (performLinebreak lb l).line_metrics.length = l.line_metrics.length + 1 := by
  unfold performLinebreak
  dsimp only
  cases h : l.line_metrics.getLast? with
  | none => simp
  | some line =>
    have hne : l.line_metrics ≠ [] := by
      intro hnil
      rw [hnil] at h
      exact Option.noConfusion h
    have hpos : 0 < l.line_metrics.length := List.length_pos.mpr hne
    by_cases hj : (l.justify && !lb.isHard) = true
    · simp only [hj, if_true]
      simp [List.length_dropLast]
      omega
    · simp only [hj, if_false]
      simp [List.length_dropLast]
      omega

/-- The line just closed by `perform_linebreak` (the second-to-last entry
of the resulting `line_metrics`) has `glyph_end = line_end_idx`
(layout.rs:726). -/
theorem performLinebreak_closed_glyph_end (lb : Linebreak) (l : Layout U)
    (h : l.line_metrics ≠ []) :
    ((performLinebreak lb l).line_metrics.dropLast.getLast?).map
        (fun lp => lp.glyph_end) =
      some l.line_end_idx := by
  obtain ⟨line, hlast⟩ := Option.isSome_iff_exists.mp
    (List.getLast?_isSome.mpr h)
  unfold performLinebreak
  dsimp only
  rw [hlast]
  by_cases hj : (l.justify && !lb.isHard) = true
  · simp [hj, List.dropLast_concat, List.getLast?_concat]
  · simp [hj, List.dropLast_concat, List.getLast?_concat]

/-! ### Claim theorems -/

/-- C9: for every settings value `s` and every starting engine state,
`reset(s); reset(s)` leaves the engine in exactly the same state
(glyphs, output, line metrics, height, settings, and all append-relevant
internal state) as a single `reset(s)`. -/
theorem C9_reset_idempotent (l : Layout U) (s : LayoutSettings) :
    reset (reset l s) s = reset l s := rfl

/-- C5 counterexample: with horizontal alignment `Justify` and no
`max_width`, `reset` still sets the engine's `justify` flag to `true`
(layout.rs:472 tests only the alignment), refuting the claim that the flag
is true only when a max width is also set. -/
theorem C5_cex :
    (reset L0
        { LayoutSettings.default with
          horizontal_align := HorizontalAlign.justify
          max_width := Option.none }).justify = true ∧
    ({ LayoutSettings.default with
       horizontal_align := HorizontalAlign.justify
       max_width := Option.none } : LayoutSettings).max_width.isSome = false :=
  ⟨rfl, rfl⟩

/-- C5 amended: after `reset(settings)`, the engine's `justify` flag is
true if and only if the horizontal alignment is `Justify`; the presence of
`max_width` plays no role in the flag. -/
theorem C5_amended_justify_iff (l : Layout U) (s : LayoutSettings) :
    (reset l s).justify = true ↔ s.horizontal_align = HorizontalAlign.justify := by
  simp [reset, clear]

/-- C3: for every appended text character, exactly one line break is
performed (the line count grows by one) when the masked break class is
hard, or when the character is non-whitespace and
`current_pos - start_pos + advance` exceeds `max_width`; otherwise the
line count is unchanged.  In particular a whitespace character never
triggers a width-based wrap. -/
theorem C3_wrap_decision (ext : Ext) (span : SpanStyle U) (font : Font)
    (px : ℚ) (l : Layout U) (c : Char) :
    (appendTextChar ext span font px l c).line_metrics.length =
      l.line_metrics.length +
        (if ((ext.lbNext l.linebreaker c).mask l.wrap_mask).isHard = true ∨
            (l.current_pos - l.start_pos +
                  fceil
                    ((if !(ext.classify c (font.lookup_glyph_index c)).control
                        then font.metrics_indexed (font.lookup_glyph_index c) px
                        else Metrics.default).advance_width + span.kerning) >
                l.max_width ∧
              (ext.classify c (font.lookup_glyph_index c)).whitespace = false)
          then 1 else 0) := by
  unfold appendTextChar
  dsimp only
  by_cases h1 :
      (lbGe ((ext.lbNext l.linebreaker c).mask l.wrap_mask) l.linebreak_prev)
        = true <;>
    by_cases h2 : (l.prev_not_whitespace &&
        (l.wrap_by_letter ||
          (ext.classify c (font.lookup_glyph_index c)).whitespace)) = true <;>
    simp only [h1, h2, if_true, if_false, Bool.false_eq_true] <;>
    by_cases h3 : ((ext.lbNext l.linebreaker c).mask l.wrap_mask).isHard = true ∨
        (l.current_pos - l.start_pos +
              fceil
                ((if !(ext.classify c (font.lookup_glyph_index c)).control
                    then font.metrics_indexed (font.lookup_glyph_index c) px
                    else Metrics.default).advance_width + span.kerning) >
            l.max_width ∧
          (ext.classify c (font.lookup_glyph_index c)).whitespace = false) <;>
    simp only [h3, if_true, if_false] <;>
    [skip; skip; skip; skip; skip; skip; skip; skip] <;>
    first
      | (rw [if_pos]
         · simp [performLinebreak_lines_length]
         · simpa [decide_eq_true_iff] using h3)
      | (rw [if_neg]
         · simp
         · simpa [decide_eq_true_iff] using h3)

/-- C1 counterexample: under `sC1` (max width 25) the text `"ab cd"`
soft-wraps at `'c'`, and the first line's `glyph_end` is 2 — the index of
the trailing space itself (`glyphs.len()` was recorded at layout.rs:586,
not `glyphs.len() - 1`) — while the last non-whitespace glyph `'b'` has
index 1.  The trailing space is therefore inside the closed line's
inclusive range `[0, 2]`, refuting the claim. -/
theorem C1_cex :
    (resC1.line_metrics.head?).map (fun lp => (lp.glyph_start, lp.glyph_end)) =
        some (0, 2) ∧
    (resC1.glyphs[2]?).map (fun g => g.parent) = some ' ' ∧
    (resC1.glyphs[2]?).map (fun g => g.char_data.whitespace) = some true ∧
    (resC1.glyphs[1]?).map (fun g => g.parent) = some 'b' ∧
    (resC1.glyphs[1]?).map (fun g => g.char_data.whitespace) = some false ∧
    resC1.line_metrics.length = 2 := by
  refine ⟨?_, ?_, ?_, ?_, ?_, ?_⟩ <;> with_unfolding_all rfl

/-- C1 amended: when the previous glyph is non-whitespace and the current
character is whitespace, `append_text` records as `line_end_idx` the value
`glyphs.len()` — the index that the current whitespace glyph itself
receives when it is pushed later in the same iteration — and a line closed
by `perform_linebreak` gets `glyph_end = line_end_idx`.  Hence the first
trailing whitespace glyph is included in the closed line's inclusive range
`[glyph_start, glyph_end]` (only whitespace after it is excluded). -/
theorem C1_amended_line_end (ext : Ext) (span : SpanStyle U) (font : Font)
    (px : ℚ) (l : Layout U) (c : Char)
    (hprev : l.prev_not_whitespace = true)
    (hws : (ext.classify c (font.lookup_glyph_index c)).whitespace = true) :
    (appendTextChar ext span font px l c).line_end_idx = l.glyphs.length ∧
    (appendTextChar ext span font px l c).glyphs.length =
      l.glyphs.length + 1 ∧
    ∀ (lb : Linebreak) (l' : Layout U), l'.line_metrics ≠ [] →
      ((performLinebreak lb l').line_metrics.dropLast.getLast?).map
          (fun lp => lp.glyph_end) =
        some l'.line_end_idx := by
  refine ⟨?_, ?_, fun lb l' h => performLinebreak_closed_glyph_end lb l' h⟩ <;>
  · unfold appendTextChar
    dsimp only
    by_cases h1 :
        (lbGe ((ext.lbNext l.linebreaker c).mask l.wrap_mask) l.linebreak_prev)
          = true <;>
      simp only [h1, if_true, if_false, Bool.false_eq_true, hprev, hws,
        Bool.or_true, Bool.and_true, Bool.true_and, Bool.not_true,
        Bool.and_false, Bool.false_and, ite_true, ite_false] <;>
      split <;>
      simp [performLinebreak_line_end_idx, performLinebreak_glyphs_length,
        Nat.sub_zero]

/-- The witness for the C1 amended theorem: a state with one non-whitespace
glyph (`resA`, after appending `"a"`), to which a space is appended; the
recorded `line_end_idx` is 1 = `glyphs.len()`, the index of the space. -/
theorem C1_amended_line_end_witness :
    (appendText extA spanA "a".toList (reset L0 sC1)).prev_not_whitespace
        = true ∧
    (extA.classify ' ' (fontA.lookup_glyph_index ' ')).whitespace = true ∧
    (appendTextChar extA spanA fontA 12
        (appendText extA spanA "a".toList (reset L0 sC1)) ' ').line_end_idx =
      (appendText extA spanA "a".toList (reset L0 sC1)).glyphs.length := by
  have h1 : (appendText extA spanA "a".toList (reset L0 sC1)).prev_not_whitespace
      = true := by with_unfolding_all rfl
  have h2 : (extA.classify ' ' (fontA.lookup_glyph_index ' ')).whitespace
      = true := by with_unfolding_all rfl
  exact ⟨h1, h2,
    (C1_amended_line_end extA spanA fontA 12
      (appendText extA spanA "a".toList (reset L0 sC1)) ' ' h1 h2).1⟩

/-- The number of whitespace glyphs in a glyph list (the `n_spaces` count
of layout.rs:731-734). -/
def wsCount (seg : List (GlyphPosition U)) : Nat :=
  (seg.filter (fun g => g.char_data.whitespace)).length

/-- The number of whitespace glyphs strictly before index `i`. -/
def wsBefore (seg : List (GlyphPosition U)) (i : Nat) : Nat :=
  wsCount (seg.take i)

theorem wsBefore_succ_cons (g : GlyphPosition U) (rest : List (GlyphPosition U))
    (n : Nat) :
    wsBefore (g :: rest) (n + 1) =
      (if g.char_data.whitespace then 1 else 0) + wsBefore rest n := by
  simp only [wsBefore, wsCount, List.take_succ_cons, List.filter_cons]
  split <;> simp <;> omega

/-- Closed form of the justification walk: the glyph at index `i` gets
`x := ceil(x + (dx₀ + wsBefore · extra))`, the accumulated extra space
being `extra` for every whitespace glyph strictly before it. -/
theorem justifyWalk_getElem (extra : ℚ) :
    ∀ (seg : List (GlyphPosition U)) (dx : ℚ) (i : Nat),
      (justifyWalk extra dx seg)[i]? =
        (seg[i]?).map
          (fun g =>
            { g with x := fceil (g.x + (dx + (wsBefore seg i : ℚ) * extra)) }) := by
  intro seg
  induction seg with
  | nil => intro dx i; simp [justifyWalk]
  | cons g rest ih =>
    intro dx i
    cases i with
    | zero => simp [justifyWalk, wsBefore, wsCount]
    | succ n =>
      simp only [justifyWalk, List.getElem?_cons_succ]
      rw [ih]
      have harg :
          (if g.char_data.whitespace then dx + extra else dx) +
              (wsBefore rest n : ℚ) * extra =
            dx + (wsBefore (g :: rest) (n + 1) : ℚ) * extra := by
        rw [wsBefore_succ_cons]
        cases hw : g.char_data.whitespace <;> simp [hw] <;> push_cast <;> ring
      rw [harg]

/-- The slice `[start, stop)` of the glyph buffer after `justifyGlyphs` is
exactly the justification walk of the original slice. -/
theorem justifyGlyphs_slice (gs : List (GlyphPosition U)) (a b : Nat) (e : ℚ)
    (ha : a ≤ gs.length) :
    ((justifyGlyphs gs a b e).drop a).take (b - a) =
      justifyWalk e 0 ((gs.drop a).take (b - a)) := by
  rw [justifyGlyphs_eq]
  have hta : (gs.take a).length = a := by
    simp [List.length_take]
    omega
  have hw : (justifyWalk e 0 ((gs.drop a).take (b - a))).length =
      ((gs.drop a).take (b - a)).length := justifyWalk_length _ _ _
  have hsl : ((gs.drop a).take (b - a)).length = min (b - a) (gs.length - a) := by
    simp [List.length_take, List.length_drop]
  rw [List.append_assoc, List.drop_left' hta, List.take_append_eq_append_take]
  have h2 : List.take (b - a) (justifyWalk e 0 ((gs.drop a).take (b - a))) =
      justifyWalk e 0 ((gs.drop a).take (b - a)) :=
    List.take_of_length_le (by omega)
  have h3 : List.take ((b - a) - (justifyWalk e 0 ((gs.drop a).take (b - a))).length)
      (gs.drop (a + ((gs.drop a).take (b - a)).length)) = [] := by
    rcases le_or_lt b gs.length with hb | hb
    · have hlen : ((gs.drop a).take (b - a)).length = b - a := by omega
      rw [hw, hlen]
      simp
    · have hlen : a + ((gs.drop a).take (b - a)).length = gs.length := by omega
      rw [hlen]
      simp
  rw [h2, h3, List.append_nil]

/-- The glyphs strictly before the justified slice are untouched. -/
theorem justifyGlyphs_take (gs : List (GlyphPosition U)) (a b : Nat) (e : ℚ)
    (ha : a ≤ gs.length) :
    (justifyGlyphs gs a b e).take a = gs.take a := by
  rw [justifyGlyphs_eq]
  have hta : (gs.take a).length = a := by
    simp [List.length_take]
    omega
  rw [List.append_assoc, List.take_left' hta]

/-- C2: whenever justification fires (justify enabled and the break is not
hard) on a line whose slice `[glyph_start, glyph_end)` holds `k > 0`
whitespace glyphs, then afterwards the closed line's `padding` is `0`; the
glyph at slice index `i` has `x = ceil(x_old + wsBefore i · extra)` with
`extra = padding/k` the equal share after each preceding whitespace glyph;
each such adjustment is within one ceil unit of the exact share; and the
`k` shares sum exactly to the pre-justify padding. -/
theorem C2_justify_distribution (lb : Linebreak) (l : Layout U)
    (lastLine : LinePosition) (gs : Nat) (seg : List (GlyphPosition U))
    (pad extra : ℚ)
    (h1 : l.line_metrics.getLast? = some lastLine)
    (h2 : l.justify = true)
    (h3 : lb.isHard = false)
    (hgs : gs = lastLine.glyph_start)
    (hseg : seg = (l.glyphs.drop gs).take (l.line_end_idx - gs))
    (hpad : pad = l.max_width - (l.line_end_pos - l.start_pos))
    (hextra : extra = pad / (wsCount seg : ℚ))
    (hk : 0 < wsCount seg) :
    ((performLinebreak lb l).line_metrics.dropLast.getLast?).map
        (fun lp => lp.padding) = some 0 ∧
    (∀ i : Nat,
      (((performLinebreak lb l).glyphs.drop gs).take (l.line_end_idx - gs))[i]? =
        (seg[i]?).map
          (fun g => { g with x := fceil (g.x + (wsBefore seg i : ℚ) * extra) })) ∧
    (∀ (i : Nat) (g : GlyphPosition U), seg[i]? = some g →
      g.x + (wsBefore seg i : ℚ) * extra ≤
          fceil (g.x + (wsBefore seg i : ℚ) * extra) ∧
        fceil (g.x + (wsBefore seg i : ℚ) * extra) <
          g.x + (wsBefore seg i : ℚ) * extra + 1) ∧
    (wsCount seg : ℚ) * extra = pad := by
  subst hgs hseg hpad hextra
  have hgs' : lastLine.glyph_start ≤ l.glyphs.length := by
    rcases le_or_lt lastLine.glyph_start l.glyphs.length with h | h
    · exact h
    · exfalso
      rw [List.drop_eq_nil_of_le (le_of_lt h)] at hk
      simp [wsCount] at hk
  have hglyphs : (performLinebreak lb l).glyphs =
      justifyGlyphs l.glyphs lastLine.glyph_start l.line_end_idx
        ((l.max_width - (l.line_end_pos - l.start_pos)) /
          (wsCount ((l.glyphs.drop lastLine.glyph_start).take
            (l.line_end_idx - lastLine.glyph_start)) : ℚ)) := by
    unfold performLinebreak
    dsimp only
    rw [h1]
    simp only [h2, h3, Bool.not_false, Bool.and_self, if_true, wsCount]
  have hpad0 : ((performLinebreak lb l).line_metrics.dropLast.getLast?).map
      (fun lp => lp.padding) = some 0 := by
    unfold performLinebreak
    dsimp only
    rw [h1]
    simp [h2, h3, List.dropLast_concat, List.getLast?_concat]
  refine ⟨hpad0, ?_, ?_, ?_⟩
  · intro i
    rw [hglyphs, justifyGlyphs_slice l.glyphs lastLine.glyph_start
      l.line_end_idx _ hgs']
    rw [justifyWalk_getElem]
    simp only [zero_add]
  · intro i g _
    exact ⟨le_fceil _, fceil_lt_add_one _⟩
  · have hne : (wsCount ((l.glyphs.drop lastLine.glyph_start).take
        (l.line_end_idx - lastLine.glyph_start)) : ℚ) ≠ 0 := by
      exact_mod_cast Nat.pos_iff_ne_zero.mp hk
    field_simp

/-- Settings with `max_width = 35`, used by the C2 witness state. -/
def s35 : LayoutSettings := { LayoutSettings.default with max_width := some 35 }

/-- A whitespace glyph at `x = 10` for the C2 witness state. -/
def gWs : GlyphPosition Unit :=
  { key := Option.none
    font := fontA
    parent := ' '
    x := 10
    y := 0
    width := 1
    height := 1
    char_data := { whitespace := true, control := false }
    user_data := () }

/-- A non-whitespace glyph at `x = 20` for the C2 witness state. -/
def gB20 : GlyphPosition Unit :=
  { key := Option.none
    font := fontA
    parent := 'b'
    x := 20
    y := 0
    width := 1
    height := 1
    char_data := { whitespace := false, control := false }
    user_data := () }

/-- A non-whitespace glyph at `x = 0` for the C2 witness state. -/
def gA0 : GlyphPosition Unit :=
  { key := Option.none
    font := fontA
    parent := 'a'
    x := 0
    y := 0
    width := 1
    height := 1
    char_data := { whitespace := false, control := false }
    user_data := () }

/-- A concrete engine state on which justification fires with one
whitespace glyph inside `[glyph_start, glyph_end) = [0, 3)` and a
pre-justify padding of `35 − (30 − 0) = 5`. -/
def lC2 : Layout Unit :=
  { reset L0 s35 with
    glyphs := [gA0, gWs, gB20]
    justify := true
    line_end_idx := 3
    line_end_pos := 30 }

/-- The witness for the C2 theorem: on `lC2` the hypotheses hold
concretely, the closed line's padding becomes 0, and the glyph after the
single whitespace glyph moves from `x = 20` to `ceil(20 + 5) = 25`. -/
theorem C2_justify_distribution_witness :
    lC2.line_metrics.getLast? = some LinePosition.default ∧
    lC2.justify = true ∧
    0 < wsCount ((lC2.glyphs.drop 0).take (3 - 0)) ∧
    ((performLinebreak Linebreak.none lC2).line_metrics.dropLast.getLast?).map
        (fun lp => lp.padding) = some 0 ∧
    ((performLinebreak Linebreak.none lC2).glyphs[2]?).map (fun g => g.x) =
      some 25 := by
  have h1 : lC2.line_metrics.getLast? = some LinePosition.default := by
    with_unfolding_all rfl
  have h2 : lC2.justify = true := rfl
  have h3 : Linebreak.isHard Linebreak.none = false := rfl
  have hk : 0 < wsCount ((lC2.glyphs.drop 0).take (3 - 0)) := by
    with_unfolding_all decide
  have hpad : lC2.max_width - (lC2.line_end_pos - lC2.start_pos) = (5 : ℚ) := by
    with_unfolding_all rfl
  have hextra : (5 : ℚ) =
      (lC2.max_width - (lC2.line_end_pos - lC2.start_pos)) /
        (wsCount ((lC2.glyphs.drop 0).take (3 - 0)) : ℚ) := by
    with_unfolding_all rfl
  have hx : ((performLinebreak Linebreak.none lC2).glyphs[2]?).map
      (fun g => g.x) = some 25 := by
    with_unfolding_all rfl
  exact ⟨h1, h2, hk,
    (C2_justify_distribution Linebreak.none lC2 LinePosition.default 0
      ((lC2.glyphs.drop 0).take (3 - 0))
      (lC2.max_width - (lC2.line_end_pos - lC2.start_pos)) 5
      h1 h2 h3 rfl rfl rfl hextra hk).1, hx⟩

/-- A justification walk over a slice with no whitespace glyph never reads
`extra`: every glyph's `x` just becomes `ceil(x + dx)`. -/
theorem justifyWalk_of_no_ws (extra dx : ℚ) :
    ∀ seg : List (GlyphPosition U),
      (∀ g ∈ seg, g.char_data.whitespace = false) →
      justifyWalk extra dx seg =
        seg.map (fun g => { g with x := fceil (g.x + dx) }) := by
  intro seg
  induction seg with
  | nil => intro _; rfl
  | cons g rest ih =>
    intro h
    have hg : g.char_data.whitespace = false := h g (List.mem_cons_self g rest)
    simp [justifyWalk, hg, ih (fun g' hg' => h g' (List.mem_cons_of_mem g hg'))]

/-- A concrete glyph for the C7 counterexample: non-whitespace, `x = 0`. -/
def gC7 : GlyphPosition Unit :=
  { key := Option.none
    font := fontA
    parent := 'a'
    x := 0
    y := 0
    width := 1
    height := 1
    char_data := { whitespace := false, control := false }
    user_data := () }

/-- A concrete engine state in which justification fires on a line with no
whitespace glyph in `[glyph_start, glyph_end) = [0, 1)` and a pre-justify
padding of `25 − (20 − 0) = 5`. -/
def lC7 : Layout Unit :=
  { reset L0 sC1 with
    glyphs := [gC7]
    justify := true
    line_end_idx := 1
    line_end_pos := 20 }

/-- C7 counterexample: on `lC7` justification fires with zero whitespace
glyphs in `[glyph_start, glyph_end)` and a pre-justify padding of 5; the
source still sets the closed line's `padding` to 0 (layout.rs:743) instead
of leaving it as-is, refuting the "padding left as-is" part of the claim
(glyph coordinates are indeed untouched). -/
theorem C7_cex :
    lC7.justify = true ∧
    lC7.max_width - (lC7.line_end_pos - lC7.start_pos) = 5 ∧
    wsCount ((lC7.glyphs.drop 0).take (1 - 0)) = 0 ∧
    ((performLinebreak Linebreak.none lC7).line_metrics.dropLast.getLast?).map
        (fun lp => lp.padding) = some 0 ∧
    ((performLinebreak Linebreak.none lC7).glyphs[0]?).map (fun g => g.x) =
      some 0 := by
  refine ⟨?_, ?_, ?_, ?_, ?_⟩ <;> with_unfolding_all rfl

/-- C7 amended: when justification fires on a line whose glyph range
`[glyph_start, glyph_end)` is a *valid* slice (`sliceMut?` succeeds, i.e.
`glyph_start ≤ glyph_end ≤ glyphs.len()` — the precondition of the Rust
slice expression, without which the source panics rather than reaching
the division) containing zero whitespace glyphs, no glyph coordinate
becomes infinite or NaN — the quotient `padding / 0` is never consumed,
so the result is the same for every possible value of `extra_space` — and
every glyph `x` in the slice is merely replaced by its ceiling (a no-op
for the whole-numbered `x` the first pass produces); however the line's
`padding` is set to 0, not left as-is.  The invalid-slice case excluded
here is reachable and aborts the program: see `C7_panic_reachable`. -/
theorem C7_amended_no_spaces (lb : Linebreak) (l : Layout U)
    (lastLine : LinePosition) (gs ge : Nat) (seg : List (GlyphPosition U))
    (h1 : l.line_metrics.getLast? = some lastLine)
    (h2 : l.justify = true)
    (h3 : lb.isHard = false)
    (hgs : gs = lastLine.glyph_start)
    (hge : ge = l.line_end_idx)
    (hslice : sliceMut? l.glyphs gs ge = some seg)
    (hk : wsCount seg = 0) :
    ((performLinebreak lb l).line_metrics.dropLast.getLast?).map
        (fun lp => lp.padding) = some 0 ∧
    (∀ i : Nat,
      (((performLinebreak lb l).glyphs.drop gs).take (ge - gs))[i]? =
        (seg[i]?).map (fun g => { g with x := fceil g.x })) ∧
    (performLinebreak lb l).glyphs.take gs = l.glyphs.take gs ∧
    (∀ e' : ℚ, justifyGlyphs l.glyphs gs ge e' = (performLinebreak lb l).glyphs) ∧
    (∀ g : GlyphPosition U, QInt g.x → fceil g.x = g.x) := by
  obtain ⟨⟨hab, hbl⟩, hseg⟩ := sliceMut?_eq_some.mp hslice
  subst hgs hge hseg
  have hgslen : lastLine.glyph_start ≤ l.glyphs.length := le_trans hab hbl
  have hno : ∀ g ∈ (l.glyphs.drop lastLine.glyph_start).take
      (l.line_end_idx - lastLine.glyph_start), g.char_data.whitespace = false := by
    intro g hg
    have := List.filter_eq_nil_iff.mp (List.length_eq_zero.mp hk) g hg
    simpa using this
  have hwalk : ∀ e' : ℚ,
      justifyWalk e' 0 ((l.glyphs.drop lastLine.glyph_start).take
        (l.line_end_idx - lastLine.glyph_start)) =
      ((l.glyphs.drop lastLine.glyph_start).take
        (l.line_end_idx - lastLine.glyph_start)).map
          (fun g => { g with x := fceil (g.x + 0) }) :=
    fun e' => justifyWalk_of_no_ws e' 0 _ hno
  have hglyphs : (performLinebreak lb l).glyphs =
      justifyGlyphs l.glyphs lastLine.glyph_start l.line_end_idx
        ((l.max_width - (l.line_end_pos - l.start_pos)) /
          (wsCount ((l.glyphs.drop lastLine.glyph_start).take
            (l.line_end_idx - lastLine.glyph_start)) : ℚ)) := by
    unfold performLinebreak
    dsimp only
    rw [h1]
    simp only [h2, h3, Bool.not_false, Bool.and_self, if_true, wsCount]
  have hindep : ∀ e' : ℚ,
      justifyGlyphs l.glyphs lastLine.glyph_start l.line_end_idx e' =
        (performLinebreak lb l).glyphs := by
    intro e'
    rw [hglyphs, justifyGlyphs_eq, justifyGlyphs_eq, hwalk, hwalk]
  have hpad0 : ((performLinebreak lb l).line_metrics.dropLast.getLast?).map
      (fun lp => lp.padding) = some 0 := by
    unfold performLinebreak
    dsimp only
    rw [h1]
    simp [h2, h3, List.dropLast_concat, List.getLast?_concat]
  refine ⟨hpad0, ?_, ?_, hindep, fun g hg => fceil_of_QInt hg⟩
  · intro i
    rw [hglyphs, justifyGlyphs_slice l.glyphs lastLine.glyph_start
      l.line_end_idx _ hgslen]
    rw [hwalk, List.getElem?_map]
    cases ((l.glyphs.drop lastLine.glyph_start).take
        (l.line_end_idx - lastLine.glyph_start))[i]? <;> simp
  · rw [hglyphs, justifyGlyphs_take l.glyphs lastLine.glyph_start
      l.line_end_idx _ hgslen]

/-- The witness for the C7 amended theorem: instantiated at the concrete
state `lC7` (one non-whitespace glyph, a valid slice `[0, 1)`, pre-justify
padding 5). -/
theorem C7_amended_no_spaces_witness :
    lC7.line_metrics.getLast? = some LinePosition.default ∧
    lC7.justify = true ∧
    Linebreak.isHard Linebreak.none = false ∧
    sliceMut? lC7.glyphs 0 1 = some ((lC7.glyphs.drop 0).take (1 - 0)) ∧
    wsCount ((lC7.glyphs.drop 0).take (1 - 0)) = 0 ∧
    ((performLinebreak Linebreak.none lC7).line_metrics.dropLast.getLast?).map
        (fun lp => lp.padding) = some 0 := by
  have h1 : lC7.line_metrics.getLast? = some LinePosition.default := by
    with_unfolding_all rfl
  have h2 : lC7.justify = true := rfl
  have h3 : Linebreak.isHard Linebreak.none = false := rfl
  have hslice : sliceMut? lC7.glyphs 0 1 =
      some ((lC7.glyphs.drop 0).take (1 - 0)) := by
    with_unfolding_all rfl
  have hk : wsCount ((lC7.glyphs.drop 0).take (1 - 0)) = 0 := by
    with_unfolding_all rfl
  have hgs : (0 : Nat) = LinePosition.default.glyph_start := rfl
  have hge : (1 : Nat) = lC7.line_end_idx := rfl
  exact ⟨h1, h2, h3, hslice, hk,
    (C7_amended_no_spaces Linebreak.none lC7 LinePosition.default 0 1
      ((lC7.glyphs.drop 0).take (1 - 0)) h1 h2 h3 hgs hge hslice hk).1⟩

/-- Justify settings with `max_width = 25`, for the C7 panic trace. -/
def sJ : LayoutSettings :=
  { LayoutSettings.default with
    max_width := some 25
    horizontal_align := HorizontalAlign.justify }

/-- The engine state after appending `"aa bb"` under `sJ`: the width wrap
at the first `'b'` opened a second line with `glyph_start = 3`, while
`line_end_idx` still holds the stale value 2 recorded at the space. -/
def lJ : Layout Unit := appendText extA spanA "aa bb".toList (reset L0 sJ)

set_option maxRecDepth 8000 in
/-- The slice-bounds panic of the justify branch is reachable through the
public API: on `lJ` (reached by appending `"aa bb"` under justify settings
with `max_width = 25`), the next `'b'` satisfies the width-wrap guard of
`append_text` (layout.rs:589-594) with a non-hard break — the two record
updates between the guard and the call leave `current_pos`, `start_pos`,
`max_width`, `line_end_idx`, the glyph buffer and the line metrics
untouched, and the `line_end` update is skipped because `'b'` is not
whitespace — so `perform_linebreak` runs its justify branch with
`glyph_start = 3 > line_end_idx = 2`, where the Rust slice
`glyphs[3..2]` (layout.rs:731) panics instead of performing any no-op. -/
theorem C7_panic_reachable :
    lJ.justify = true ∧
    lJ.wrap_by_letter = false ∧
    ((extA.lbNext lJ.linebreaker 'b').mask lJ.wrap_mask).isHard = false ∧
    (decide (lJ.current_pos - lJ.start_pos + fceil
        ((fontA.metrics_indexed (fontA.lookup_glyph_index 'b') 12).advance_width
          + spanA.kerning) > lJ.max_width) &&
      !(extA.classify 'b' (fontA.lookup_glyph_index 'b')).whitespace) = true ∧
    (lJ.line_metrics.getLast?).map (fun lp => lp.glyph_start) = some 3 ∧
    lJ.line_end_idx = 2 ∧
    sliceMut? lJ.glyphs 3 2 = none := by
  refine ⟨?_, ?_, ?_, ?_, ?_, ?_, ?_⟩ <;> with_unfolding_all rfl

/-! ### C8: non-emptiness of `line_metrics` -/

theorem modifyLast_length (f : α → α) :
    ∀ l : List α, (modifyLast f l).length = l.length := by
  intro l
  induction l with
  | nil => rfl
  | cons a t ih =>
    cases t with
    | nil => rfl
    | cons b rest => simpa [modifyLast] using ih

theorem foldl_preserve {α β : Type _} {P : α → Prop} {f : α → β → α}
    (hf : ∀ a b, P a → P (f a b)) :
    ∀ (xs : List β) (a : α), P a → P (xs.foldl f a) := by
  intro xs
  induction xs with
  | nil => intro a h; exact h
  | cons x t ih => intro a h; exact ih _ (hf a x h)

theorem performLinebreak_lines_ne_nil (lb : Linebreak) (l : Layout U) :
    (performLinebreak lb l).line_metrics ≠ [] := by
  have hlen := performLinebreak_lines_length lb l
  intro h
  rw [h] at hlen
  simp at hlen

theorem appendTextChar_lines_ne_nil (ext : Ext) (span : SpanStyle U)
    (font : Font) (px : ℚ) (l : Layout U) (c : Char)
    (h : l.line_metrics ≠ []) :
    (appendTextChar ext span font px l c).line_metrics ≠ [] := by
  unfold appendTextChar
  dsimp only
  repeat' split
  all_goals
    first
      | exact performLinebreak_lines_ne_nil _ _
      | exact h

theorem updateLastLineMetrics_lines_length (l : Layout U) :
    (updateLastLineMetrics l).line_metrics.length = l.line_metrics.length := by
  unfold updateLastLineMetrics
  exact modifyLast_length _ _

theorem modifyLast_ne_nil (f : α → α) {xs : List α} (h : xs ≠ []) :
    modifyLast f xs ≠ [] := by
  intro hnil
  apply h
  have := modifyLast_length f xs
  rw [hnil] at this
  exact List.eq_nil_of_length_eq_zero this.symm

theorem appendText_lines_ne_nil (ext : Ext) (span : SpanStyle U)
    (text : List Char) (l : Layout U) (h : l.line_metrics ≠ []) :
    (appendText ext span text l).line_metrics ≠ [] := by
  unfold appendText
  dsimp only
  split
  · exact h
  · apply modifyLast_ne_nil
    refine @foldl_preserve (Layout U) Char (fun a => a.line_metrics ≠ []) _
      (fun a b ha => appendTextChar_lines_ne_nil ext span _ _ a b ha) text _ ?_
    split
    · next m heq =>
        intro hnil
        apply h
        have hlen := updateLastLineMetrics_lines_length
          { l with
            current_ascent := fceil m.ascent
            current_new_line := fceil m.new_line_size
            current_descent := fceil m.descent
            current_line_gap := fceil m.line_gap
            current_line_height := span.line_height }
        rw [hnil] at hlen
        exact List.eq_nil_of_length_eq_zero hlen.symm
    · exact h

theorem finalizeLines_fst_length (glyphs : List (GlyphPosition U))
    (x0 h_align dir : ℚ) :
    ∀ (lines : List LinePosition) (baseline_y : ℚ) (idx : Nat),
      (finalizeLines glyphs x0 h_align dir baseline_y idx lines).1.length =
        lines.length := by
  intro lines
  induction lines with
  | nil => intro baseline_y idx; rfl
  | cons line rest ih =>
    intro baseline_y idx
    simp [finalizeLines, ih]

theorem finalize_lines_ne_nil (l : Layout U) (h : l.line_metrics ≠ []) :
    (finalize l).line_metrics ≠ [] := by
  unfold finalize
  dsimp only
  split
  · exact h
  · intro hnil
    dsimp only at hnil
    apply h
    have hlen := finalizeLines_fst_length l.glyphs l.x l.horizontal_align
      (if l.flip = true then (-1 : ℚ) else 1) l.line_metrics
      (l.y - (if l.flip = true then (-1 : ℚ) else 1) *
        ffloor ((l.max_height - heightFn l) * l.vertical_align)) 0
    rw [hnil] at hlen
    exact List.eq_nil_of_length_eq_zero hlen.symm

theorem appendBlock_lines_ne_nil (ext : Ext) (span : SpanStyle U)
    (block : Block) (l : Layout U) (h : l.line_metrics ≠ []) :
    (appendBlock ext span block l).line_metrics ≠ [] := by
  unfold appendBlock
  dsimp only
  split
  · exact h
  · apply modifyLast_ne_nil
    have hstyle : (appendBlockStyle span (span.font.getD l.base_font)
        (span.px.getD l.base_px) block l).line_metrics ≠ [] := by
      unfold appendBlockStyle
      split <;> exact modifyLast_ne_nil _ h
    repeat' split
    all_goals
      first
        | exact performLinebreak_lines_ne_nil _ _
        | exact hstyle

/-- C8: `line_metrics` is non-empty immediately after `reset` or `clear`
(a default line is pushed), and every public operation — append of a text
or block span, `clear`, `reset`, `finalize` (and the line breaks they
perform) — preserves its non-emptiness. -/
theorem C8_line_metrics_nonempty (ext : Ext) (l : Layout U)
    (s : LayoutSettings) (op : Op U) :
    (reset l s).line_metrics ≠ [] ∧
    (clear l).line_metrics ≠ [] ∧
    (l.line_metrics ≠ [] → (applyOp ext l op).line_metrics ≠ []) := by
  have hres : ∀ (l' : Layout U) (s' : LayoutSettings),
      (reset l' s').line_metrics = [LinePosition.default] := fun _ _ => rfl
  have hclr : ∀ l' : Layout U, (clear l').line_metrics = [LinePosition.default] :=
    fun _ => rfl
  refine ⟨by rw [hres]; exact List.cons_ne_nil _ _,
    by rw [hclr]; exact List.cons_ne_nil _ _, fun h => ?_⟩
  cases op with
  | reset s' =>
    show (reset l s').line_metrics ≠ []
    rw [hres]
    exact List.cons_ne_nil _ _
  | clear =>
    show (clear l).line_metrics ≠ []
    rw [hclr]
    exact List.cons_ne_nil _ _
  | appendText span text => exact appendText_lines_ne_nil ext span text l h
  | appendBlock span block => exact appendBlock_lines_ne_nil ext span block l h
  | finalize => exact finalize_lines_ne_nil l h

/-- The witness for C8: the concrete engine `L0` has a non-empty line
list, and appending the text `"a"` preserves that. -/
theorem C8_line_metrics_nonempty_witness :
    L0.line_metrics ≠ [] ∧
    (applyOp extA L0 (Op.appendText spanA "a".toList)).line_metrics ≠ [] := by
  have h : L0.line_metrics ≠ [] := by with_unfolding_all decide
  exact ⟨h,
    (C8_line_metrics_nonempty extA L0 LayoutSettings.default
      (Op.appendText spanA "a".toList)).2.2 h⟩

/-! ### C10: finalize emits every intermediate glyph exactly once -/

theorem performLinebreak_glyph_end_bound (lb : Linebreak) (l : Layout U)
    (hb : ∀ lp ∈ l.line_metrics, lp.glyph_end = 0 ∨
      lp.glyph_end < l.glyphs.length)
    (he : l.line_end_idx ≤ l.glyphs.length) :
    ∀ lp ∈ (performLinebreak lb l).line_metrics,
      lp.glyph_end = 0 ∨ lp.glyph_end ≤ l.glyphs.length := by
  unfold performLinebreak
  dsimp only
  cases hlast : l.line_metrics.getLast? with
  | none =>
    intro lp hlp
    rcases List.mem_append.mp hlp with hmem | hmem
    · rcases hb lp hmem with hc | hc
      · exact Or.inl hc
      · exact Or.inr (Nat.le_of_lt hc)
    · rcases List.mem_singleton.mp hmem with rfl
      exact Or.inl rfl
  | some line =>
    by_cases hj : (l.justify && !lb.isHard) = true <;>
      simp only [hj, if_true, if_false, Bool.false_eq_true] <;>
      intro lp hlp <;>
      rcases List.mem_append.mp hlp with hmem | hmem
    · rcases List.mem_append.mp hmem with hmem' | hmem'
      · rcases hb lp (List.dropLast_subset _ hmem') with hc | hc
        · exact Or.inl hc
        · exact Or.inr (Nat.le_of_lt hc)
      · rcases List.mem_singleton.mp hmem' with rfl
        exact Or.inr he
    · rcases List.mem_singleton.mp hmem with rfl
      exact Or.inl rfl
    · rcases List.mem_append.mp hmem with hmem' | hmem'
      · rcases hb lp (List.dropLast_subset _ hmem') with hc | hc
        · exact Or.inl hc
        · exact Or.inr (Nat.le_of_lt hc)
      · rcases List.mem_singleton.mp hmem' with rfl
        exact Or.inr he
    · rcases List.mem_singleton.mp hmem with rfl
      exact Or.inl rfl

theorem appendTextChar_invariants (ext : Ext) (span : SpanStyle U)
    (font : Font) (px : ℚ) (l : Layout U) (c : Char)
    (h1 : l.line_metrics ≠ [])
    (h2 : l.line_end_idx ≤ l.glyphs.length)
    (h3 : ∀ lp ∈ l.line_metrics, lp.glyph_end = 0 ∨
      lp.glyph_end < l.glyphs.length) :
    (appendTextChar ext span font px l c).glyphs.length =
      l.glyphs.length + 1 ∧
    (appendTextChar ext span font px l c).line_metrics ≠ [] ∧
    (appendTextChar ext span font px l c).line_end_idx ≤
      (appendTextChar ext span font px l c).glyphs.length ∧
    (∀ lp ∈ (appendTextChar ext span font px l c).line_metrics,
      lp.glyph_end = 0 ∨
        lp.glyph_end < (appendTextChar ext span font px l c).glyphs.length) := by
  unfold appendTextChar
  dsimp only
  repeat' split
  all_goals refine ⟨?_, ?_, ?_, ?_⟩
  all_goals
    try first
      | exact performLinebreak_lines_ne_nil _ _
      | exact h1
  all_goals
    simp only [performLinebreak_line_end_idx, performLinebreak_glyphs_length,
      List.length_append, List.length_cons, List.length_nil]
  all_goals try dsimp only
  all_goals try omega
  all_goals intro lp hlp
  all_goals
    first
      | exact (h3 lp hlp).imp (fun hc => hc) (fun hc => by omega)
      | exact (performLinebreak_glyph_end_bound _ _ (by exact h3)
          (by first
            | omega
            | (dsimp only; omega)) lp hlp).imp
          (fun hc => hc)
          (fun hc => by
            first
              | omega
              | (dsimp only at hc; omega))

/-- The glyph-range invariant maintained at operation boundaries: the line
list is non-empty, `line_end_idx` never exceeds the glyph count, every
line's `glyph_end` is 0 or in range, and — once any glyph exists — the
last line's `glyph_end` is the index of the last glyph. -/
def EndInv (l : Layout U) : Prop :=
  l.line_metrics ≠ [] ∧
  l.line_end_idx ≤ l.glyphs.length ∧
  (∀ lp ∈ l.line_metrics, lp.glyph_end = 0 ∨ lp.glyph_end < l.glyphs.length) ∧
  (l.glyphs ≠ [] →
    (l.line_metrics.getLast?).map (fun lp => lp.glyph_end) =
      some (l.glyphs.length - 1))

theorem modifyLast_mem {f : α → α} :
    ∀ {xs : List α} {a : α}, a ∈ modifyLast f xs →
      a ∈ xs ∨ ∃ b ∈ xs, a = f b := by
  intro xs
  induction xs with
  | nil => intro a ha; exact absurd ha (List.not_mem_nil a)
  | cons c t ih =>
    intro a ha
    cases t with
    | nil =>
      rcases List.mem_singleton.mp ha with rfl
      exact Or.inr ⟨c, List.mem_singleton.mpr rfl, rfl⟩
    | cons d rest =>
      rcases List.mem_cons.mp ha with rfl | hmem
      · exact Or.inl (List.mem_cons_self _ _)
      · rcases ih hmem with hmem' | ⟨b, hb, rfl⟩
        · exact Or.inl (List.mem_cons_of_mem _ hmem')
        · exact Or.inr ⟨b, List.mem_cons_of_mem _ hb, rfl⟩

theorem modifyLast_getLast? (f : α → α) :
    ∀ xs : List α, (modifyLast f xs).getLast? = xs.getLast?.map f := by
  intro xs
  induction xs with
  | nil => rfl
  | cons c t ih =>
    cases t with
    | nil => rfl
    | cons d rest =>
      have hne : modifyLast f (d :: rest) ≠ [] :=
        modifyLast_ne_nil f (List.cons_ne_nil d rest)
      obtain ⟨m, ms, hM⟩ := List.exists_cons_of_ne_nil hne
      calc (c :: modifyLast f (d :: rest)).getLast?
          = (modifyLast f (d :: rest)).getLast? := by
            rw [hM, List.getLast?_cons_cons]
        _ = (d :: rest).getLast?.map f := ih
        _ = (c :: d :: rest).getLast?.map f := by rw [List.getLast?_cons_cons]

/-- `update_last_line_metrics` never touches a line's `glyph_end`. -/
theorem updateLastLineMetrics_glyph_end (l : Layout U) :
    ∀ lp ∈ (updateLastLineMetrics l).line_metrics,
      ∃ lp0 ∈ l.line_metrics, lp.glyph_end = lp0.glyph_end := by
  intro lp hlp
  unfold updateLastLineMetrics at hlp
  try dsimp only at hlp
  rcases modifyLast_mem hlp with hmem | ⟨b, hb, rfl⟩
  · exact ⟨lp, hmem, rfl⟩
  · refine ⟨b, hb, ?_⟩
    dsimp only
    repeat' split
    all_goals rfl

theorem modifyLast_getLast?_map_glyph_end (f : LinePosition → LinePosition)
    (xs : List LinePosition) (hne : xs ≠ []) (N : Nat)
    (hf : ∀ line, (f line).glyph_end = N) :
    ((modifyLast f xs).getLast?).map (fun lp => lp.glyph_end) = some N := by
  rw [modifyLast_getLast?]
  obtain ⟨last, hlast⟩ := Option.isSome_iff_exists.mp
    (List.getLast?_isSome.mpr hne)
  rw [hlast]
  simp [hf]

/-- The common tail of `append_text`/`append_block` (layout.rs:622-625 and
layout.rs:696-699): setting the last line's padding and
`glyph_end = glyphs.len() - 1` establishes the glyph-range invariant. -/
theorem finalStage_EndInv (l' : Layout U) (P : ℚ)
    (h1 : l'.line_metrics ≠ [])
    (h2 : l'.line_end_idx ≤ l'.glyphs.length)
    (h3 : ∀ lp ∈ l'.line_metrics, lp.glyph_end = 0 ∨
      lp.glyph_end < l'.glyphs.length) :
    EndInv
      { l' with
        line_metrics :=
          modifyLast
            (fun line =>
              { line with
                padding := P
                glyph_end := l'.glyphs.length - 1 })
            l'.line_metrics } := by
  refine ⟨modifyLast_ne_nil _ h1, h2, ?_, ?_⟩
  · intro lp hlp
    rcases modifyLast_mem hlp with hmem | ⟨b, _, rfl⟩
    · exact h3 lp hmem
    · dsimp only
      rcases Nat.eq_zero_or_pos l'.glyphs.length with hz | hpos
      · exact Or.inl (by omega)
      · exact Or.inr (by omega)
  · intro _
    rw [modifyLast_getLast?]
    obtain ⟨last, hlast⟩ := Option.isSome_iff_exists.mp
      (List.getLast?_isSome.mpr h1)
    rw [hlast]
    rfl

/-- The three per-character invariants, packaged for fold reasoning. -/
def MidInv (l : Layout U) : Prop :=
  l.line_metrics ≠ [] ∧
  l.line_end_idx ≤ l.glyphs.length ∧
  ∀ lp ∈ l.line_metrics, lp.glyph_end = 0 ∨ lp.glyph_end < l.glyphs.length

theorem appendText_fold_MidInv (ext : Ext) (span : SpanStyle U) (font : Font)
    (px : ℚ) (text : List Char) (X0 : Layout U) (h : MidInv X0) :
    MidInv (text.foldl (appendTextChar ext span font px) X0) := by
  refine @foldl_preserve (Layout U) Char MidInv _ (fun a b ha => ?_) text X0 h
  obtain ⟨r1, r2, r3, r4⟩ := appendTextChar_invariants ext span font px a b
    ha.1 ha.2.1 ha.2.2
  exact ⟨r2, r3, r4⟩

theorem updateLastLineMetrics_MidInv (l : Layout U) (h : MidInv l) :
    MidInv (updateLastLineMetrics l) := by
  obtain ⟨h1, h2, h3⟩ := h
  refine ⟨?_, h2, ?_⟩
  · unfold updateLastLineMetrics
    exact modifyLast_ne_nil _ h1
  · intro lp hlp
    obtain ⟨lp0, h0, he⟩ := updateLastLineMetrics_glyph_end l lp hlp
    rw [he]
    exact h3 lp0 h0

/-- `append_text` establishes the glyph-range invariant. -/
theorem appendText_EndInv (ext : Ext) (span : SpanStyle U) (text : List Char)
    (l : Layout U) (h : EndInv l) : EndInv (appendText ext span text l) := by
  obtain ⟨h1, h2, h3, h4⟩ := h
  unfold appendText
  dsimp only
  split
  · exact ⟨h1, h2, h3, h4⟩
  · cases hm : (span.font.getD l.base_font).horizontal_line_metrics
        (span.px.getD l.base_px) with
    | none =>
      refine finalStage_EndInv _ _ ?_ ?_ ?_
      all_goals
        obtain ⟨r1, r2, r3⟩ := appendText_fold_MidInv ext span
          (span.font.getD l.base_font) (span.px.getD l.base_px) text l
          ⟨h1, h2, h3⟩
      · exact r1
      · exact r2
      · exact r3
    | some m =>
      refine finalStage_EndInv _ _ ?_ ?_ ?_
      all_goals
        obtain ⟨r1, r2, r3⟩ := appendText_fold_MidInv ext span
          (span.font.getD l.base_font) (span.px.getD l.base_px) text
          (updateLastLineMetrics
            { l with
              current_ascent := fceil m.ascent
              current_new_line := fceil m.new_line_size
              current_descent := fceil m.descent
              current_line_gap := fceil m.line_gap
              current_line_height := span.line_height })
          (updateLastLineMetrics_MidInv _ ⟨h1, h2, h3⟩)
      · exact r1
      · exact r2
      · exact r3

set_option maxHeartbeats 3200000 in
/-- `append_block` establishes the glyph-range invariant. -/
theorem appendBlock_EndInv (ext : Ext) (span : SpanStyle U) (block : Block)
    (l : Layout U) (h : EndInv l) : EndInv (appendBlock ext span block l) := by
  obtain ⟨h1, h2, h3, h4⟩ := h
  have hSB : MidInv (appendBlockStyle span (span.font.getD l.base_font)
      (span.px.getD l.base_px) block l) := by
    unfold appendBlockStyle
    split
    all_goals exact updateLastLineMetrics_MidInv _ ⟨h1, h2, h3⟩
  obtain ⟨hb1, hb2, hb3⟩ := hSB
  unfold appendBlock
  dsimp only
  split
  · exact ⟨h1, h2, h3, h4⟩
  · refine ⟨?_, ?_, ?_, ?_⟩
    · dsimp only
      apply modifyLast_ne_nil
      repeat' split
      all_goals
        first
          | exact performLinebreak_lines_ne_nil _ _
          | exact hb1
    · dsimp only
      repeat' split
      all_goals
        simp only [performLinebreak_line_end_idx, performLinebreak_glyphs_length,
          List.length_append, List.length_cons, List.length_nil]
      all_goals try dsimp only
      all_goals omega
    · dsimp only
      repeat' split
      all_goals intro lp hlp
      all_goals rcases modifyLast_mem hlp with hmem | ⟨b, hbm, rfl⟩
      all_goals
        first
          | exact (hb3 lp hmem).imp (fun hc => hc)
              (fun hc => by
                simp only [List.length_append, List.length_cons,
                  List.length_nil]
                omega)
          | exact (performLinebreak_glyph_end_bound _ _ (by exact hb3)
              (by first
                | omega
                | (dsimp only; omega)) lp hmem).imp
              (fun hc => hc)
              (fun hc => by
                simp only [performLinebreak_glyphs_length, List.length_append,
                  List.length_cons, List.length_nil]
                first
                  | omega
                  | (dsimp only at hc; omega))
          | (dsimp only
             simp only [performLinebreak_glyphs_length, List.length_append,
               List.length_cons, List.length_nil]
             omega)
    · dsimp only
      intro hne
      repeat' split
      all_goals
        exact modifyLast_getLast?_map_glyph_end _ _
          (by first
            | exact performLinebreak_lines_ne_nil _ _
            | exact hb1) _ (fun line => rfl)

theorem clear_EndInv (l : Layout U) : EndInv (clear l) := by
  refine ⟨List.cons_ne_nil _ _, Nat.le_refl _, ?_, ?_⟩
  · intro lp hlp
    rcases List.mem_singleton.mp hlp with rfl
    exact Or.inl rfl
  · intro hg
    exact absurd rfl hg

theorem finalize_glyphs_eq (l : Layout U) :
    (finalize l).glyphs = l.glyphs ∧ (finalize l).line_end_idx = l.line_end_idx := by
  unfold finalize
  dsimp only
  split <;> exact ⟨rfl, rfl⟩

theorem finalizeLines_fst_map_glyph_end (glyphs : List (GlyphPosition U))
    (x0 h_align dir : ℚ) :
    ∀ (lines : List LinePosition) (bl : ℚ) (idx : Nat),
      ((finalizeLines glyphs x0 h_align dir bl idx lines).1).map
          (fun lp => lp.glyph_end) =
        lines.map (fun lp => lp.glyph_end) := by
  intro lines
  induction lines with
  | nil => intro bl idx; rfl
  | cons line rest ih =>
    intro bl idx
    simp [finalizeLines, ih]

theorem finalize_lines_map_glyph_end (l : Layout U) :
    ((finalize l).line_metrics).map (fun lp => lp.glyph_end) =
      l.line_metrics.map (fun lp => lp.glyph_end) := by
  unfold finalize
  dsimp only
  split
  · rfl
  · exact finalizeLines_fst_map_glyph_end _ _ _ _ _ _ _

theorem finalize_EndInv (l : Layout U) (h : EndInv l) : EndInv (finalize l) := by
  obtain ⟨h1, h2, h3, h4⟩ := h
  obtain ⟨hg, he⟩ := finalize_glyphs_eq l
  refine ⟨finalize_lines_ne_nil l h1, ?_, ?_, ?_⟩
  · rw [he, hg]
    exact h2
  · intro lp hlp
    have hmem : lp.glyph_end ∈ l.line_metrics.map (fun lp => lp.glyph_end) := by
      rw [← finalize_lines_map_glyph_end l]
      exact List.mem_map_of_mem _ hlp
    obtain ⟨lp0, h0, hg0⟩ := List.mem_map.mp hmem
    rw [hg, ← hg0]
    exact h3 lp0 h0
  · intro hgne
    rw [hg] at hgne
    have hmap : (finalize l).line_metrics.getLast?.map (fun lp => lp.glyph_end)
        = l.line_metrics.getLast?.map (fun lp => lp.glyph_end) := by
      rw [← List.getLast?_map, ← List.getLast?_map, finalize_lines_map_glyph_end]
    rw [hg, hmap]
    exact h4 hgne

/-- Every state reachable from a fresh engine through the public
operations satisfies the glyph-range invariant. -/
theorem runOps_EndInv (ext : Ext) (font : Font) (px : ℚ)
    (cs : CoordinateSystem) (ops : List (Op U)) :
    EndInv (runOps ext (Layout.new U font px cs) ops) := by
  refine @foldl_preserve (Layout U) (Op U) EndInv _ (fun a op ha => ?_) ops _
    (clear_EndInv _)
  cases op with
  | reset s => exact clear_EndInv _
  | clear => exact clear_EndInv _
  | appendText span text => exact appendText_EndInv ext span text a ha
  | appendBlock span block => exact appendBlock_EndInv ext span block a ha
  | finalize => exact finalize_EndInv a ha

/-- Erase the two coordinates that finalization adjusts, for the
"differs only in `x` and `y`" comparison. -/
def stripXY (g : GlyphPosition U) : GlyphPosition U := { g with x := 0, y := 0 }

/-- The value of the glyph cursor `idx` after the finalization loop has
processed the given lines starting from `idx₀`. -/
def maxEnd (idx : Nat) (lines : List LinePosition) : Nat :=
  lines.foldl (fun i lp => max i (lp.glyph_end + 1)) idx

theorem le_maxEnd (lines : List LinePosition) :
    ∀ idx : Nat, idx ≤ maxEnd idx lines := by
  induction lines with
  | nil => intro idx; exact Nat.le_refl _
  | cons line rest ih =>
    intro idx
    exact le_trans (le_max_left _ _) (ih (max idx (line.glyph_end + 1)))

theorem maxEnd_le (lines : List LinePosition) :
    ∀ (idx n : Nat), idx ≤ n → (∀ lp ∈ lines, lp.glyph_end + 1 ≤ n) →
      maxEnd idx lines ≤ n := by
  induction lines with
  | nil => intro idx n h _; exact h
  | cons line rest ih =>
    intro idx n h hall
    refine ih _ n (max_le h (hall line (List.mem_cons_self _ _))) ?_
    intro lp hlp
    exact hall lp (List.mem_cons_of_mem _ hlp)

theorem le_maxEnd_of_mem (lines : List LinePosition) :
    ∀ (idx : Nat) (lp : LinePosition), lp ∈ lines →
      lp.glyph_end + 1 ≤ maxEnd idx lines := by
  induction lines with
  | nil => intro idx lp hlp; exact absurd hlp (List.not_mem_nil lp)
  | cons line rest ih =>
    intro idx lp hlp
    rcases List.mem_cons.mp hlp with rfl | hmem
    · exact le_trans (le_max_right idx _) (le_maxEnd rest _)
    · exact ih _ lp hmem

theorem slice_append (xs : List α) (a b c : Nat) (hab : a ≤ b) (hbc : b ≤ c) :
    (xs.drop a).take (b - a) ++ (xs.drop b).take (c - b) =
      (xs.drop a).take (c - a) := by
  have h1 : c - a = (b - a) + (c - b) := by omega
  have h2 : (xs.drop a).drop (b - a) = xs.drop b := by
    rw [List.drop_drop]
    congr 1
    omega
  rw [h1, List.take_add, h2]

theorem emitGlyphs_stripXY (glyphs : List (GlyphPosition U)) (idx gend : Nat)
    (xp bl : ℚ) :
    (emitGlyphs glyphs idx gend xp bl).map stripXY =
      ((glyphs.drop idx).take (gend + 1 - idx)).map stripXY := by
  unfold emitGlyphs
  rw [List.map_map]
  congr 1

/-- The finalization loop, stripped of its coordinate adjustments, emits
exactly the glyph slice `[idx, maxEnd idx lines)`: the cursor only moves
forward, so the emitted segments tile the slice without gaps or
duplicates. -/
theorem finalizeLines_output_strip (glyphs : List (GlyphPosition U))
    (x0 h_align dir : ℚ) :
    ∀ (lines : List LinePosition) (bl : ℚ) (idx : Nat),
      ((finalizeLines glyphs x0 h_align dir bl idx lines).2).map stripXY =
        ((glyphs.drop idx).take (maxEnd idx lines - idx)).map stripXY := by
  intro lines
  induction lines with
  | nil =>
    intro bl idx
    simp [finalizeLines, maxEnd]
  | cons line rest ih =>
    intro bl idx
    simp only [finalizeLines, List.map_append]
    rw [emitGlyphs_stripXY, ih, ← List.map_append]
    have hmax : maxEnd idx (line :: rest) =
        maxEnd (max idx (line.glyph_end + 1)) rest := rfl
    rw [hmax]
    congr 1
    have h1 : line.glyph_end + 1 - idx = max idx (line.glyph_end + 1) - idx := by
      omega
    rw [h1]
    exact slice_append glyphs idx (max idx (line.glyph_end + 1))
      (maxEnd (max idx (line.glyph_end + 1)) rest) (le_max_left _ _)
      (le_maxEnd rest _)

/-- C10: after `finalize` on any reachable engine state with at least one
intermediate glyph, the output buffer holds exactly one entry per
intermediate glyph, in the same index order, each differing from its
intermediate counterpart only in `x` and `y`: the finalization cursor
starts at 0 and sweeps continuously through the last line's `glyph_end`
(which the invariant pins at `glyphs.len() - 1`), so glyphs excluded from
a line's inclusive range are still emitted while positioning the
following line. -/
theorem C10_finalize_emits_all (ext : Ext) (font : Font) (px : ℚ)
    (cs : CoordinateSystem) (ops : List (Op U))
    (h : (runOps ext (Layout.new U font px cs) ops).glyphs.isEmpty = false) :
    (finalize (runOps ext (Layout.new U font px cs) ops)).output.map stripXY =
      (runOps ext (Layout.new U font px cs) ops).glyphs.map stripXY ∧
    (finalize (runOps ext (Layout.new U font px cs) ops)).output.length =
      (runOps ext (Layout.new U font px cs) ops).glyphs.length := by
  obtain ⟨h1, h2, h3, h4⟩ := runOps_EndInv ext font px cs ops
  generalize hL : runOps ext (Layout.new U font px cs) ops = l at *
  have hne : l.glyphs ≠ [] := by
    intro hnil
    rw [hnil] at h
    simp at h
  have hpos : 0 < l.glyphs.length := List.length_pos.mpr hne
  have hout : (finalize l).output =
      (finalizeLines l.glyphs l.x l.horizontal_align
        (if l.flip then (-1 : ℚ) else 1)
        (l.y - (if l.flip then (-1 : ℚ) else 1) *
          ffloor ((l.max_height - heightFn l) * l.vertical_align)) 0
        l.line_metrics).2 := by
    unfold finalize
    simp only [h, Bool.false_eq_true, if_false]
  have hmaxEnd : maxEnd 0 l.line_metrics = l.glyphs.length := by
    refine Nat.le_antisymm ?_ ?_
    · refine maxEnd_le l.line_metrics 0 l.glyphs.length (Nat.zero_le _) ?_
      intro lp hlp
      rcases h3 lp hlp with hc | hc <;> omega
    · obtain ⟨last, hlast⟩ := Option.isSome_iff_exists.mp
        (List.getLast?_isSome.mpr h1)
      have hend : last.glyph_end = l.glyphs.length - 1 := by
        have := h4 hne
        rw [hlast] at this
        simpa using this
      have hmem : last ∈ l.line_metrics := by
        obtain ⟨hne', heq⟩ := List.mem_getLast?_eq_getLast
          (show last ∈ l.line_metrics.getLast? from hlast)
        rw [heq]
        exact List.getLast_mem hne'
      have := le_maxEnd_of_mem l.line_metrics 0 last hmem
      omega
  have hmapeq : (finalize l).output.map stripXY = l.glyphs.map stripXY := by
    rw [hout, finalizeLines_output_strip, hmaxEnd]
    simp
  refine ⟨hmapeq, ?_⟩
  have := congrArg List.length hmapeq
  simpa using this

set_option maxRecDepth 8000 in
/-- The witness for C10: a concrete run appending `"ab"`, which leaves two
intermediate glyphs; `finalize` emits both, in order, unchanged except for
their coordinates. -/
theorem C10_finalize_emits_all_witness :
    (runOps extA (Layout.new Unit fontA 12 CoordinateSystem.positiveYUp)
        [Op.appendText spanA "ab".toList]).glyphs.isEmpty = false ∧
    (finalize (runOps extA (Layout.new Unit fontA 12
          CoordinateSystem.positiveYUp) [Op.appendText spanA "ab".toList])
        ).output.length =
      (runOps extA (Layout.new Unit fontA 12 CoordinateSystem.positiveYUp)
        [Op.appendText spanA "ab".toList]).glyphs.length := by
  have h : (runOps extA (Layout.new Unit fontA 12
      CoordinateSystem.positiveYUp) [Op.appendText spanA "ab".toList]
        ).glyphs.isEmpty = false := by
    with_unfolding_all rfl
  exact ⟨h,
    (C10_finalize_emits_all extA fontA 12 CoordinateSystem.positiveYUp
      [Op.appendText spanA "ab".toList] h).2⟩

/-! ### C4: whole-number coordinates -/

/-- An optional rational that is a whole number when present. -/
def OptQInt : Option ℚ → Prop
  | Option.none => True
  | some q => QInt q

instance : (o : Option ℚ) → Decidable (OptQInt o)
  | Option.none => isTrue trivial
  | some q => inferInstanceAs (Decidable (QInt q))

theorem OptQInt_getD_one {o : Option ℚ} (h : OptQInt o) : QInt (o.getD 1) := by
  cases o with
  | none => exact QInt.one
  | some q => exact h

theorem QInt.max {a b : ℚ} (ha : QInt a) (hb : QInt b) : QInt (max a b) := by
  rcases max_choice a b with h | h <;> rw [h] <;> assumption

/-- Both coordinates of a glyph are whole numbers. -/
def GlyphInt (g : GlyphPosition U) : Prop := QInt g.x ∧ QInt g.y

/-- The whole-number fields of a line record (its `padding` may be
fractional; it is always floored or ceiled before reaching a
coordinate). -/
def LineInt (lp : LinePosition) : Prop :=
  QInt lp.baseline_y ∧ QInt lp.max_ascent ∧ QInt lp.min_descent ∧
  QInt lp.max_line_gap ∧ QInt lp.max_new_line_size ∧
  OptQInt lp.line_height ∧ QInt lp.tracking_x

/-- The whole-number invariant over the whole engine state: every
position-like scalar, every stored glyph coordinate and every line's
vertical aggregates are whole numbers (`max_width`, `max_height`,
`padding` and the alignment multipliers are exempt: they only reach
coordinates through `floor`/`ceil`). -/
def StateInt (l : Layout U) : Prop :=
  QInt l.x ∧ QInt l.y ∧ QInt l.height ∧ QInt l.current_pos ∧
  QInt l.start_pos ∧ QInt l.linebreak_pos ∧ QInt l.line_end_pos ∧
  QInt l.current_ascent ∧ QInt l.current_descent ∧ QInt l.current_line_gap ∧
  QInt l.current_new_line ∧ OptQInt l.current_line_height ∧
  (∀ g ∈ l.output, GlyphInt g) ∧ (∀ g ∈ l.glyphs, GlyphInt g) ∧
  (∀ lp ∈ l.line_metrics, LineInt lp)

theorem LineInt_default : LineInt LinePosition.default :=
  ⟨QInt.zero, QInt.zero, QInt.zero, QInt.zero, QInt.zero, trivial, QInt.zero⟩

theorem clear_StateInt (l : Layout U) (hx : QInt l.x) (hy : QInt l.y) :
    StateInt (clear l) := by
  refine ⟨hx, hy, QInt.zero, QInt.zero, QInt.zero, QInt.zero, QInt.zero,
    QInt.zero, QInt.zero, QInt.zero, QInt.zero, trivial, ?_, ?_, ?_⟩
  · intro g hg
    exact absurd hg (List.not_mem_nil g)
  · intro g hg
    exact absurd hg (List.not_mem_nil g)
  · intro lp hlp
    rcases List.mem_singleton.mp hlp with rfl
    exact LineInt_default

theorem reset_StateInt (l : Layout U) (s : LayoutSettings)
    (hx : QInt s.x) (hy : QInt s.y) : StateInt (reset l s) :=
  clear_StateInt _ hx hy

theorem justifyWalk_GlyphInt (e : ℚ) :
    ∀ (dx : ℚ) (seg : List (GlyphPosition U)),
      (∀ g ∈ seg, GlyphInt g) →
      ∀ g ∈ justifyWalk e dx seg, GlyphInt g := by
  intro dx seg
  induction seg generalizing dx with
  | nil => intro _ g hg; exact absurd hg (List.not_mem_nil g)
  | cons g0 rest ih =>
    intro hall g hg
    rcases List.mem_cons.mp hg with rfl | hmem
    · exact ⟨QInt.fceil _, (hall g0 (List.mem_cons_self _ _)).2⟩
    · exact ih _ (fun g' hg' => hall g' (List.mem_cons_of_mem _ hg')) g hmem

theorem justifyGlyphs_GlyphInt (gs : List (GlyphPosition U)) (a b : Nat)
    (e : ℚ) (hall : ∀ g ∈ gs, GlyphInt g) :
    ∀ g ∈ justifyGlyphs gs a b e, GlyphInt g := by
  intro g hg
  rw [justifyGlyphs_eq] at hg
  rcases List.mem_append.mp hg with hg' | hg'
  · rcases List.mem_append.mp hg' with hg'' | hg''
    · exact hall g (List.take_subset _ _ hg'')
    · exact justifyWalk_GlyphInt e 0 _
        (fun g' hg' => hall g' (List.drop_subset _ _ (List.take_subset _ _ hg')))
        g hg''
  · exact hall g (List.drop_subset _ _ hg')

theorem mem_of_getLast?_eq {xs : List α} {a : α} (h : xs.getLast? = some a) :
    a ∈ xs := by
  obtain ⟨hne, heq⟩ := List.mem_getLast?_eq_getLast
    (show a ∈ xs.getLast? from h)
  rw [heq]
  exact List.getLast_mem hne

theorem updateLastLineMetrics_StateInt (l : Layout U) (h : StateInt l) :
    StateInt (updateLastLineMetrics l) := by
  obtain ⟨hx, hy, hh, hcp, hsp, hlbp, hlep, hca, hcd, hcg, hcn, hclh, hout,
    hgl, hlm⟩ := h
  refine ⟨hx, hy, hh, hcp, hsp, hlbp, hlep, hca, hcd, hcg, hcn, hclh, hout,
    hgl, ?_⟩
  intro lp hlp
  unfold updateLastLineMetrics at hlp
  try dsimp only at hlp
  rcases modifyLast_mem hlp with hmem | ⟨b, hb, rfl⟩
  · exact hlm lp hmem
  · obtain ⟨hb1, hb2, hb3, hb4, hb5, hb6, hb7⟩ := hlm b hb
    try dsimp only
    cases hclh_eq : l.current_line_height with
    | none =>
      simp only [hclh_eq]
      repeat' split
      all_goals try dsimp only
      all_goals
        refine ⟨?_, ?_, ?_, ?_, ?_, ?_, ?_⟩ <;>
          first
            | exact hb1 | exact hb2 | exact hb3 | exact hb4 | exact hb5
            | exact hb6 | exact hb7
            | exact hca | exact hcd | exact hcg | exact hcn
    | some lh =>
      have hlh : QInt lh := by rw [hclh_eq] at hclh; exact hclh
      simp only [hclh_eq]
      repeat' split
      all_goals try dsimp only
      all_goals
        refine ⟨?_, ?_, ?_, ?_, ?_, ?_, ?_⟩ <;>
          first
            | exact hb1 | exact hb2 | exact hb3 | exact hb4 | exact hb5
            | exact hb6 | exact hb7
            | exact hca | exact hcd | exact hcg | exact hcn
            | (cases hopt : b.line_height with
               | none =>
                 simp only [hopt, Option.map_none', Option.getD_none]
                 exact hlh
               | some h0 =>
                 have hh0 : QInt h0 := by rw [hopt] at hb6; exact hb6
                 simp only [hopt, Option.map_some', Option.getD_some]
                 exact QInt.max hh0 hlh)

theorem performLinebreak_StateInt (lb : Linebreak) (l : Layout U)
    (h : StateInt l) : StateInt (performLinebreak lb l) := by
  obtain ⟨hx, hy, hh, hcp, hsp, hlbp, hlep, hca, hcd, hcg, hcn, hclh, hout,
    hgl, hlm⟩ := h
  unfold performLinebreak
  dsimp only
  cases hlast : l.line_metrics.getLast? with
  | none =>
    refine ⟨hx, hy, hh, hcp, hlbp, hlbp, hlep, hca, hcd, hcg, hcn, hclh, hout,
      hgl, ?_⟩
    intro lp hlp
    rcases List.mem_append.mp hlp with hmem | hmem
    · exact hlm lp hmem
    · rcases List.mem_singleton.mp hmem with rfl
      exact ⟨QInt.zero, hca, hcd, hcg, hcn, hclh, hlbp⟩
  | some line =>
    obtain ⟨hl1, hl2, hl3, hl4, hl5, hl6, hl7⟩ := hlm line
      (mem_of_getLast?_eq hlast)
    have hheight : QInt (l.height + line.max_new_line_size *
        line.line_height.getD 1) :=
      QInt.add hh (QInt.mul hl5 (OptQInt_getD_one hl6))
    by_cases hj : (l.justify && !lb.isHard) = true <;>
      simp only [hj, if_true, if_false, Bool.false_eq_true] <;>
      refine ⟨hx, hy, hheight, hcp, hlbp, hlbp, hlep, hca, hcd, hcg, hcn,
        hclh, hout, ?_, ?_⟩
    · exact justifyGlyphs_GlyphInt _ _ _ _ hgl
    · intro lp hlp
      rcases List.mem_append.mp hlp with hmem | hmem
      · rcases List.mem_append.mp hmem with hmem' | hmem'
        · exact hlm lp (List.dropLast_subset _ hmem')
        · rcases List.mem_singleton.mp hmem' with rfl
          exact ⟨hl1, hl2, hl3, hl4, hl5, hl6, hl7⟩
      · rcases List.mem_singleton.mp hmem with rfl
        exact ⟨QInt.zero, hca, hcd, hcg, hcn, hclh, hlbp⟩
    · exact hgl
    · intro lp hlp
      rcases List.mem_append.mp hlp with hmem | hmem
      · rcases List.mem_append.mp hmem with hmem' | hmem'
        · exact hlm lp (List.dropLast_subset _ hmem')
        · rcases List.mem_singleton.mp hmem' with rfl
          exact ⟨hl1, hl2, hl3, hl4, hl5, hl6, hl7⟩
      · rcases List.mem_singleton.mp hmem with rfl
        exact ⟨QInt.zero, hca, hcd, hcg, hcn, hclh, hlbp⟩

/-- Pushing one glyph and advancing the pen keeps all coordinates whole,
provided the glyph's coordinates and the advance are whole. -/
theorem pushGlyph_StateInt (S : Layout U) (g : GlyphPosition U) (adv : ℚ)
    (b : Bool) (hS : StateInt S) (hg : GlyphInt g) (hadv : QInt adv) :
    StateInt
      { S with
        glyphs := S.glyphs ++ [g]
        current_pos := S.current_pos + adv
        prev_not_whitespace := b } := by
  obtain ⟨hx, hy, hh, hcp, hsp, hlbp, hlep, hca, hcd, hcg, hcn, hclh, hout,
    hgl, hlm⟩ := hS
  refine ⟨hx, hy, hh, QInt.add hcp hadv, hsp, hlbp, hlep, hca, hcd, hcg, hcn,
    hclh, hout, ?_, hlm⟩
  intro g' hg'
  rcases List.mem_append.mp hg' with hmem | hmem
  · exact hgl g' hmem
  · rcases List.mem_singleton.mp hmem with rfl
    exact hg

/-- Setting the last line's padding and `glyph_end` (the tail of both
append operations) keeps all coordinates whole. -/
theorem setLastPadding_StateInt (X : Layout U) (P : ℚ) (n : Nat)
    (hX : StateInt X) :
    StateInt
      { X with
        line_metrics :=
          modifyLast
            (fun line => { line with padding := P, glyph_end := n })
            X.line_metrics } := by
  obtain ⟨hx, hy, hh, hcp, hsp, hlbp, hlep, hca, hcd, hcg, hcn, hclh, hout,
    hgl, hlm⟩ := hX
  refine ⟨hx, hy, hh, hcp, hsp, hlbp, hlep, hca, hcd, hcg, hcn, hclh, hout,
    hgl, ?_⟩
  intro lp hlp
  rcases modifyLast_mem hlp with hmem | ⟨b, hb, rfl⟩
  · exact hlm lp hmem
  · obtain ⟨hb1, hb2, hb3, hb4, hb5, hb6, hb7⟩ := hlm b hb
    exact ⟨hb1, hb2, hb3, hb4, hb5, hb6, hb7⟩

/-- One decoded character of `append_text` keeps all coordinates whole. -/
theorem appendTextChar_StateInt (ext : Ext) (span : SpanStyle U) (font : Font)
    (px : ℚ) (l : Layout U) (c : Char) (h : StateInt l) :
    StateInt (appendTextChar ext span font px l c) := by
  obtain ⟨hx, hy, hh, hcp, hsp, hlbp, hlep, hca, hcd, hcg, hcn, hclh, hout,
    hgl, hlm⟩ := h
  unfold appendTextChar
  dsimp only
  refine pushGlyph_StateInt _ _ _ _ ?_ ?_ ?_
  · repeat' split
    all_goals
      first
        | (refine performLinebreak_StateInt _ _ ?_
           refine ⟨?_, ?_, ?_, ?_, ?_, ?_, ?_, ?_, ?_, ?_, ?_, ?_, ?_, ?_,
               ?_⟩ <;>
             first
               | exact hx | exact hy | exact hh | exact hcp | exact hsp
               | exact hlbp | exact hlep | exact hca | exact hcd | exact hcg
               | exact hcn | exact hclh | exact hout | exact hgl | exact hlm)
        | (refine ⟨?_, ?_, ?_, ?_, ?_, ?_, ?_, ?_, ?_, ?_, ?_, ?_, ?_, ?_,
               ?_⟩ <;>
             first
               | exact hx | exact hy | exact hh | exact hcp | exact hsp
               | exact hlbp | exact hlep | exact hca | exact hcd | exact hcg
               | exact hcn | exact hclh | exact hout | exact hgl | exact hlm)
  · dsimp only [GlyphInt]
    constructor
    all_goals repeat' split
    all_goals exact QInt.ffloor _
  · exact QInt.fceil _

/-- `append_text` keeps all coordinates whole, provided the span's
line-height override (if any) is a whole number. -/
theorem appendText_StateInt (ext : Ext) (span : SpanStyle U)
    (text : List Char) (l : Layout U) (hspan : OptQInt span.line_height)
    (h : StateInt l) : StateInt (appendText ext span text l) := by
  unfold appendText
  dsimp only
  split
  · exact h
  · refine setLastPadding_StateInt _ _ _ ?_
    refine @foldl_preserve (Layout U) Char StateInt _
      (fun a c ha => appendTextChar_StateInt ext span _ _ a c ha) text _ ?_
    obtain ⟨hx, hy, hh, hcp, hsp, hlbp, hlep, hca, hcd, hcg, hcn, hclh, hout,
      hgl, hlm⟩ := h
    cases hm : (span.font.getD l.base_font).horizontal_line_metrics
        (span.px.getD l.base_px) with
    | none => exact ⟨hx, hy, hh, hcp, hsp, hlbp, hlep, hca, hcd, hcg, hcn,
        hclh, hout, hgl, hlm⟩
    | some m =>
      exact updateLastLineMetrics_StateInt _
        ⟨hx, hy, hh, hcp, hsp, hlbp, hlep, QInt.fceil _, QInt.fceil _,
          QInt.fceil _, QInt.fceil _, hspan, hout, hgl, hlm⟩

/-- The style intake of `append_block` keeps all coordinates whole: both
match arms store only `fceil`ed values, the block height is an integer
width, and the line-height override is assumed whole. -/
theorem appendBlockStyle_StateInt (span : SpanStyle U) (font : Font)
    (px : ℚ) (params : Block) (l : Layout U)
    (hspan : OptQInt span.line_height) (h : StateInt l) :
    StateInt (appendBlockStyle span font px params l) := by
  obtain ⟨hx, hy, hh, hcp, hsp, hlbp, hlep, hca, hcd, hcg, hcn, hclh, hout,
    hgl, hlm⟩ := h
  unfold appendBlockStyle
  dsimp only
  refine updateLastLineMetrics_StateInt _ ?_
  split
  all_goals
    first
      | exact ⟨hx, hy, hh, hcp, hsp, hlbp, hlep, QInt.fceil _, QInt.fceil _,
          QInt.fceil _, QInt.fceil _, hspan, hout, hgl, hlm⟩
      | exact ⟨hx, hy, hh, hcp, hsp, hlbp, hlep, QInt.natCast _, QInt.zero,
          QInt.zero, QInt.natCast _, hspan, hout, hgl, hlm⟩

/-- The glyph push and trailing padding update at the tail of
`Layout::append_block` (layout.rs:672-693), stated over an arbitrary
pre-state `S`: the pushed block glyph has a floored `x` and a `y` read
from the whole-number ascent/descent aggregates, so the invariant is
preserved whenever the advance is whole. -/
theorem appendBlockPush_StateInt (S : Layout U) (font : Font) (ch : Char)
    (cd : CharacterData) (w h2 : Nat) (ud : U) (adv P : ℚ) (n : Nat)
    (hS : StateInt S) (hadv : QInt adv) :
    StateInt
      { S with
        glyphs :=
          S.glyphs ++
            [({ key := Option.none
                font := font
                parent := ch
                x := ffloor S.current_pos
                y := if S.flip then -S.current_ascent else S.current_descent
                width := w
                height := h2
                char_data := cd
                user_data := ud } : GlyphPosition U)]
        current_pos := S.current_pos + adv
        prev_not_whitespace := true
        line_metrics :=
          modifyLast
            (fun line => { line with padding := P, glyph_end := n })
            S.line_metrics } := by
  obtain ⟨hx, hy, hh, hcp, hsp, hlbp, hlep, hca, hcd, hcg, hcn, hclh, hout,
    hgl, hlm⟩ := hS
  refine ⟨hx, hy, hh, QInt.add hcp hadv, hsp, hlbp, hlep, hca, hcd, hcg, hcn,
    hclh, hout, ?_, ?_⟩
  · intro g' hg'
    rcases List.mem_append.mp hg' with hmem | hmem
    · exact hgl g' hmem
    · rcases List.mem_singleton.mp hmem with rfl
      refine ⟨QInt.ffloor _, ?_⟩
      dsimp only
      split
      · exact QInt.neg hca
      · exact hcd
  · intro lp hlp
    rcases modifyLast_mem hlp with hmem | ⟨b, hb, rfl⟩
    · exact hlm lp hmem
    · obtain ⟨hb1, hb2, hb3, hb4, hb5, hb6, hb7⟩ := hlm b hb
      exact ⟨hb1, hb2, hb3, hb4, hb5, hb6, hb7⟩

set_option maxHeartbeats 3200000 in
/-- `append_block` keeps all coordinates whole, provided the span's
`kerning` and line-height override are whole numbers.  The kerning
hypothesis is genuinely needed: unlike `append_text`, the block advance
`params.width + kerning` (layout.rs:659) is *not* passed through `ceil`,
so a fractional kerning would leak into `current_pos` and from there into
the tracking offsets of later lines. -/
theorem appendBlock_StateInt (ext : Ext) (span : SpanStyle U)
    (params : Block) (l : Layout U) (hker : QInt span.kerning)
    (hspan : OptQInt span.line_height) (h : StateInt l) :
    StateInt (appendBlock ext span params l) := by
  unfold appendBlock
  dsimp only
  split
  · exact h
  · obtain ⟨hx, hy, hh, hcp, hsp, hlbp, hlep, hca, hcd, hcg, hcn, hclh, hout,
      hgl, hlm⟩ := appendBlockStyle_StateInt span (span.font.getD l.base_font)
        (span.px.getD l.base_px) params l hspan h
    refine appendBlockPush_StateInt _ _ _ _ _ _ _ _ _ _ ?_
      (QInt.add (QInt.natCast _) hker)
    repeat' split
    all_goals
      first
        | (refine performLinebreak_StateInt _ _ ?_
           refine ⟨?_, ?_, ?_, ?_, ?_, ?_, ?_, ?_, ?_, ?_, ?_, ?_, ?_, ?_,
               ?_⟩ <;>
             first
               | exact hx | exact hy | exact hh | exact hcp | exact hsp
               | exact hlbp | exact hlep | exact hca | exact hcd | exact hcg
               | exact hcn | exact hclh | exact hout | exact hgl | exact hlm)
        | (refine ⟨?_, ?_, ?_, ?_, ?_, ?_, ?_, ?_, ?_, ?_, ?_, ?_, ?_, ?_,
               ?_⟩ <;>
             first
               | exact hx | exact hy | exact hh | exact hcp | exact hsp
               | exact hlbp | exact hlep | exact hca | exact hcd | exact hcg
               | exact hcn | exact hclh | exact hout | exact hgl | exact hlm)

/-- The per-line loop of `finalize` keeps lines and emitted glyphs whole:
the x-padding is a whole `x0 - tracking_x` plus a floored term, and each
baseline step multiplies whole line aggregates by the direction sign. -/
theorem finalizeLines_int (glyphs : List (GlyphPosition U))
    (x0 h_align dir : ℚ) (hx0 : QInt x0) (hdir : QInt dir)
    (hg : ∀ g ∈ glyphs, GlyphInt g) :
    ∀ (lines : List LinePosition) (bl : ℚ) (idx : Nat), QInt bl →
      (∀ lp ∈ lines, LineInt lp) →
      (∀ lp ∈ (finalizeLines glyphs x0 h_align dir bl idx lines).1,
          LineInt lp) ∧
      (∀ g ∈ (finalizeLines glyphs x0 h_align dir bl idx lines).2,
          GlyphInt g) := by
  intro lines
  induction lines with
  | nil =>
    intro bl idx _ _
    constructor
    · intro lp hlp
      simp [finalizeLines] at hlp
    · intro g hgm
      simp [finalizeLines] at hgm
  | cons line rest ih =>
    intro bl idx hbl hall
    obtain ⟨hl1, hl2, hl3, hl4, hl5, hl6, hl7⟩ :=
      hall line (List.mem_cons_self _ _)
    have hall' : ∀ lp ∈ rest, LineInt lp :=
      fun lp hlp => hall lp (List.mem_cons_of_mem _ hlp)
    have hbl1 : QInt (bl - dir * line.max_ascent) :=
      QInt.sub hbl (QInt.mul hdir hl2)
    have hbl2 : QInt (bl - dir * line.max_ascent -
        dir * (line.max_new_line_size * line.line_height.getD 1 -
          line.max_ascent)) :=
      QInt.sub hbl1 (QInt.mul hdir
        (QInt.sub (QInt.mul hl5 (OptQInt_getD_one hl6)) hl2))
    have hxp : QInt (x0 - line.tracking_x +
        ffloor (line.padding * h_align)) :=
      QInt.add (QInt.sub hx0 hl7) (QInt.ffloor _)
    have hrec := ih _ (max idx (line.glyph_end + 1)) hbl2 hall'
    constructor
    · intro lp hlp
      simp only [finalizeLines] at hlp
      rcases List.mem_cons.mp hlp with rfl | hmem
      · exact ⟨hbl1, hl2, hl3, hl4, hl5, hl6, hl7⟩
      · exact hrec.1 lp hmem
    · intro g hgm
      simp only [finalizeLines, emitGlyphs] at hgm
      rcases List.mem_append.mp hgm with hmem | hmem
      · obtain ⟨g0, hg0, rfl⟩ := List.mem_map.mp hmem
        have hg0' : g0 ∈ glyphs :=
          List.drop_subset _ _ (List.take_subset _ _ hg0)
        obtain ⟨hgx, hgy⟩ := hg g0 hg0'
        exact ⟨QInt.add hgx hxp, QInt.add hgy hbl1⟩
      · exact hrec.2 g hmem

/-- `finalize` keeps all coordinates whole: the starting baseline is the
whole `y` origin minus a floored vertical-align offset, and the per-line
loop preserves wholeness. -/
theorem finalize_StateInt (l : Layout U) (h : StateInt l) :
    StateInt (finalize l) := by
  obtain ⟨hx, hy, hh, hcp, hsp, hlbp, hlep, hca, hcd, hcg, hcn, hclh, hout,
    hgl, hlm⟩ := h
  unfold finalize
  dsimp only
  split
  · exact ⟨hx, hy, hh, hcp, hsp, hlbp, hlep, hca, hcd, hcg, hcn, hclh, hout,
      hgl, hlm⟩
  · have hdir : QInt (if l.flip then (-1 : ℚ) else 1) := by
      split
      · exact QInt.neg QInt.one
      · exact QInt.one
    have hbase : QInt (l.y - (if l.flip then (-1 : ℚ) else 1) *
        ffloor ((l.max_height - heightFn l) * l.vertical_align)) :=
      QInt.sub hy (QInt.mul hdir (QInt.ffloor _))
    have hr := finalizeLines_int l.glyphs l.x l.horizontal_align _ hx hdir
      hgl l.line_metrics _ 0 hbase hlm
    exact ⟨hx, hy, hh, hcp, hsp, hlbp, hlep, hca, hcd, hcg, hcn, hclh,
      hr.2, hgl, hr.1⟩

/-- The whole-number side conditions of amended C4 on one public
operation: whole origin for `reset`, whole `kerning` for block spans (the
block advance is not ceiled, layout.rs:659), and a whole line-height
override when present (it scales the baseline step, layout.rs:780).  A
text span's `rise` and `kerning` may be arbitrary: the glyph floor/ceil
absorbs them. -/
def OpIntegral : Op U → Prop
  | Op.reset s => QInt s.x ∧ QInt s.y
  | Op.clear => True
  | Op.appendText span _ => OptQInt span.line_height
  | Op.appendBlock span _ => QInt span.kerning ∧ OptQInt span.line_height
  | Op.finalize => True

instance : (op : Op U) → Decidable (OpIntegral op)
  | Op.reset s => inferInstanceAs (Decidable (QInt s.x ∧ QInt s.y))
  | Op.clear => isTrue trivial
  | Op.appendText span _ =>
      inferInstanceAs (Decidable (OptQInt span.line_height))
  | Op.appendBlock span _ =>
      inferInstanceAs (Decidable (QInt span.kerning ∧
        OptQInt span.line_height))
  | Op.finalize => isTrue trivial

/-- Every integral public operation preserves the whole-number
invariant. -/
theorem applyOp_StateInt (ext : Ext) (l : Layout U) (op : Op U)
    (hop : OpIntegral op) (h : StateInt l) : StateInt (applyOp ext l op) := by
  cases op with
  | reset s => exact reset_StateInt _ _ hop.1 hop.2
  | clear => exact clear_StateInt _ h.1 h.2.1
  | appendText span text => exact appendText_StateInt _ _ _ _ hop h
  | appendBlock span block => exact appendBlock_StateInt _ _ _ _ hop.1 hop.2 h
  | finalize => exact finalize_StateInt _ h

/-- A sequence of integral public operations preserves the whole-number
invariant. -/
theorem runOps_StateInt (ext : Ext) (l : Layout U) (ops : List (Op U))
    (hops : ∀ op ∈ ops, OpIntegral op) (h : StateInt l) :
    StateInt (runOps ext l ops) := by
  induction ops generalizing l with
  | nil => exact h
  | cons op rest ih =>
    exact ih (applyOp ext l op)
      (fun o ho => hops o (List.mem_cons_of_mem _ ho))
      (applyOp_StateInt ext l op (hops op (List.mem_cons_self _ _)) h)

/-- A fresh engine satisfies the whole-number invariant (it is a `reset`
with the all-zero default settings). -/
theorem new_StateInt (font : Font) (px : ℚ) (cs : CoordinateSystem) :
    StateInt (Layout.new U font px cs) := by
  unfold Layout.new
  exact reset_StateInt _ _ QInt.zero QInt.zero

/-- A deliberately fractional filler glyph, used as the `getD` default in
the C4 witness so the whole-number conclusion cannot come from the
default. -/
def gFrac : GlyphPosition Unit :=
  { key := Option.none
    font := fontA
    parent := 'x'
    x := 1 / 2
    y := 1 / 2
    width := 0
    height := 0
    char_data := { whitespace := false, control := false }
    user_data := () }

/-- The integral operation sequence used by the C4 witness. -/
def opsC4 : List (Op Unit) :=
  [Op.reset LayoutSettings.default, Op.appendText spanA ['a'], Op.finalize]

/-- The operation sequence refuting literal C4: its `reset` carries the
fractional origin `x = 1/2`, which the claim says is allowed. -/
def opsC4f : List (Op Unit) :=
  [Op.reset { LayoutSettings.default with x := 1 / 2 },
   Op.appendText spanA ['a'], Op.finalize]

set_option maxRecDepth 8000 in
/-- C4 counterexample: with a fractional origin `x = 1/2` — explicitly
allowed by the claim — the single finalized glyph has `x = 1/2`, which is
not a whole number: `finalize` adds the raw origin `self.x` into each
line's x-padding (layout.rs:779) without flooring it. -/
theorem C4_cex :
    ((runOps extA (Layout.new Unit fontA 12 CoordinateSystem.positiveYUp)
        opsC4f).output.map (fun g => g.x)) = [1 / 2] ∧
      ¬ QInt ((1 : ℚ) / 2) := by
  constructor
  · with_unfolding_all rfl
  · with_unfolding_all decide

/-- C4 (amended): for every finalized glyph (text or block), the final x
and y coordinates are whole numbers, provided every `reset` origin is
whole, every block span's `kerning` is whole, and every line-height
override is whole.  Text spans may carry fractional `rise` and `kerning`
(the per-glyph floor/ceil absorbs them), but — contrary to the literal
claim — the block advance `width + kerning` (layout.rs:659) is *not*
ceiled like a text advance, and the raw `x`/`y` origin enters the emitted
coordinates unfloored, so those inputs must themselves be whole. -/
theorem C4_amended_whole_coords (ext : Ext) (font : Font) (px : ℚ)
    (cs : CoordinateSystem) (ops : List (Op U))
    (hops : ∀ op ∈ ops, OpIntegral op) :
    ∀ g ∈ (runOps ext (Layout.new U font px cs) ops).output,
      QInt g.x ∧ QInt g.y := by
  obtain ⟨_, _, _, _, _, _, _, _, _, _, _, _, hout, _, _⟩ :=
    runOps_StateInt ext (Layout.new U font px cs) ops hops
      (new_StateInt font px cs)
  exact hout

set_option maxRecDepth 8000 in
/-- C4 witness: the amended theorem applied to the concrete integral
sequence `opsC4`; the first emitted glyph of the run has whole
coordinates. -/
theorem C4_amended_whole_coords_witness :
    (∀ op ∈ opsC4, OpIntegral op) ∧
    QInt (((runOps extA (Layout.new Unit fontA 12
        CoordinateSystem.positiveYUp) opsC4).output.getD 0 gFrac).x) ∧
    QInt (((runOps extA (Layout.new Unit fontA 12
        CoordinateSystem.positiveYUp) opsC4).output.getD 0 gFrac).y) := by
  have hlen : 0 < (runOps extA (Layout.new Unit fontA 12
      CoordinateSystem.positiveYUp) opsC4).output.length := by
    with_unfolding_all decide
  have hmem : (runOps extA (Layout.new Unit fontA 12
      CoordinateSystem.positiveYUp) opsC4).output.getD 0 gFrac ∈
      (runOps extA (Layout.new Unit fontA 12
        CoordinateSystem.positiveYUp) opsC4).output := by
    rw [List.getD_eq_getElem _ _ hlen]
    exact List.getElem_mem _
  have h := C4_amended_whole_coords extA fontA 12
    CoordinateSystem.positiveYUp opsC4 (by decide) _ hmem
  exact ⟨by decide, h.1, h.2⟩

end Fontdue

/-!
### Bit-exact model of the `GlyphRasterConfig` key (layout.rs:107-130)

For claim C6 the `f32` field `px` must be modelled at the bit level,
because the key's equality (`PartialEq`, layout.rs:124-128) compares `px`
with the IEEE-754 `==` of `f32`, while its hash (layout.rs:116-122) feeds
`px.to_bits()` to the hasher.  A bit pattern is a `Nat` below `2³²`; two
non-NaN binary32 patterns denote the same real value exactly when they are
identical or are the two zeros.
-/

namespace FontdueKey

/-- The exponent field of a binary32 bit pattern. -/
def expBits (b : Nat) : Nat := b / 2 ^ 23 % 2 ^ 8

/-- The fraction field of a binary32 bit pattern. -/
def fracBits (b : Nat) : Nat := b % 2 ^ 23

/-- Whether a binary32 bit pattern is a NaN. -/
def isNaNBits (b : Nat) : Bool := expBits b == 255 && !(fracBits b == 0)

/-- Whether a binary32 bit pattern is `+0.0` or `-0.0`. -/
def isZeroBits (b : Nat) : Bool := b == 0 || b == 2 ^ 31

/-- IEEE-754 `==` on binary32 bit patterns: a NaN is unequal to
everything (itself included); `+0.0 == -0.0`; any other pair is equal
exactly when the patterns are identical. -/
def f32Eq (a b : Nat) : Bool :=
  if isNaNBits a || isNaNBits b then false
  else if isZeroBits a && isZeroBits b then true
  else a == b

/-- `GlyphRasterConfig` (layout.rs:107) with `px` as its bit pattern. -/
structure GlyphRasterConfig where
  glyph_index : Nat
  px : Nat
  font_hash : Nat
deriving DecidableEq, Repr

/-- `PartialEq for GlyphRasterConfig` (layout.rs:124): field-wise equality
with the `px` field compared by the IEEE `==` of `f32`. -/
def grcEq (a b : GlyphRasterConfig) : Bool :=
  a.glyph_index == b.glyph_index && f32Eq a.px b.px &&
    a.font_hash == b.font_hash

/-- `Hash for GlyphRasterConfig` (layout.rs:116): the data fed to the
hasher — the glyph index, `px.to_bits()`, and the font hash.  Two keys
hash identically exactly when they feed the same data. -/
def grcHash (a : GlyphRasterConfig) : Nat × Nat × Nat :=
  (a.glyph_index, a.px, a.font_hash)

/-- C6: evaluation of the key's equality and hash at the failing inputs.
A key with NaN `px` (bit pattern `0x7FC00000`) is unequal to itself even
though the source derives `Eq` (whose contract promises reflexivity), and
the keys with `px = +0.0` and `px = -0.0` are equal yet feed different
bit patterns to the hasher — refuting both the bit-pattern equality and
the hash-consistency parts of the claim. -/
theorem C6_key_eq_bug :
    isNaNBits 2143289344 = true ∧
    grcEq ⟨1, 2143289344, 2⟩ ⟨1, 2143289344, 2⟩ = false ∧
    grcEq ⟨1, 0, 2⟩ ⟨1, 2 ^ 31, 2⟩ = true ∧
    grcHash ⟨1, 0, 2⟩ ≠ grcHash ⟨1, 2 ^ 31, 2⟩ := by decide

end FontdueKey
